import Mathlib

/-!
# Verification of the helpdesk RAG core against its specification

This file gives a shallow embedding, in Lean 4, of the core data model and
operations of the helpdesk service (vector codec, text chunker, text cleanup,
vector store with arena/partition/cache, LLM retry policy, query-engine
pending path, and the pending-question manager), together with theorems
settling the specification claims C1–C10.

Modelling conventions, used consistently below:

* Go machine floats (`float32`/`float64`) are modelled by exact rationals `ℚ`
  wherever their *values* flow through arithmetic, and by their 64-bit
  *bit patterns* (`Nat` below `2^64`) wherever the code manipulates raw bits
  (serialisation, hashing).  `Float.sqrt` is modelled by the computable
  `Rat.sqrt`; the structural properties proved here (ordering, cardinality,
  threshold filtering, frame conditions) do not depend on the numeric value
  a square root takes.
* Go strings are modelled by `String` where they are opaque tokens and by
  `List Char` where the code works character by character (chunking,
  cleaning, bigrams).
* Go's `database/sql` tables are modelled by in-memory lists of rows;
  an `INSERT` fails exactly when it would violate the primary-key or
  foreign-key constraints declared in `internal/db/db.go`.
* External services (embedding API, chat API) are oracles passed as function
  arguments; goroutine fan-out is modelled by processing the worker slices
  in worker order (the properties proved are invariant under the completion
  order of workers).
-/

/-! ## Vector codec (claim C3)

The concrete `SerializeVector` / `DeserializeVector` implementation file is
not part of the sources available here — only its tests
(`internal/vectorstore/serialize_test.go`), its callers, and a design-document
sketch are.  The codec is therefore modelled from the spec (§4.1, §6):
little-endian packed 8-byte IEEE-754 floats, with byte lengths not divisible
by the width rejected.  Floats are represented by their 64-bit patterns, so
round-tripping at this level is exactly bit-pattern preservation (covering
±∞ and NaN payloads as well as ordinary values). -/

/-- Modelled from the spec: little-endian byte split of one 64-bit float
pattern (the implementation of the vector codec is not under `src/`). -/
def f64leBytes (x : Nat) : List Nat :=
  [x % 256, x / 256 % 256, x / 256 ^ 2 % 256, x / 256 ^ 3 % 256,
   x / 256 ^ 4 % 256, x / 256 ^ 5 % 256, x / 256 ^ 6 % 256, x / 256 ^ 7 % 256]

/-- Modelled from the spec: recombine eight little-endian bytes into one
64-bit float pattern. -/
def f64ofBytes (b0 b1 b2 b3 b4 b5 b6 b7 : Nat) : Nat :=
  b0 + b1 * 256 + b2 * 256 ^ 2 + b3 * 256 ^ 3 +
    b4 * 256 ^ 4 + b5 * 256 ^ 5 + b6 * 256 ^ 6 + b7 * 256 ^ 7

/-- Modelled from the spec: `serialize(vec) → bytes` writes each float's
64-bit pattern little-endian. -/
def SerializeVector (vec : List Nat) : List Nat :=
  (vec.map f64leBytes).flatten

/-- Helper for deserialisation: read the byte stream eight bytes at a time. -/
def deserLoop : List Nat → List Nat
  | b0 :: b1 :: b2 :: b3 :: b4 :: b5 :: b6 :: b7 :: rest =>
      f64ofBytes b0 b1 b2 b3 b4 b5 b6 b7 :: deserLoop rest
  | _ => []

/-- Modelled from the spec: `deserialize(bytes) → vec`, rejecting with an
error (here `none`) any byte length not divisible by the 8-byte width. -/
def DeserializeVector (data : List Nat) : Option (List Nat) :=
  if data.length % 8 ≠ 0 then none
  else some (deserLoop data)

theorem f64ofBytes_f64leBytes {x : Nat} (hx : x < 2 ^ 64) :
    f64ofBytes (x % 256) (x / 256 % 256) (x / 256 ^ 2 % 256) (x / 256 ^ 3 % 256)
      (x / 256 ^ 4 % 256) (x / 256 ^ 5 % 256) (x / 256 ^ 6 % 256)
      (x / 256 ^ 7 % 256) = x := by
  unfold f64ofBytes
  omega

theorem deserLoop_serialize (v : List Nat) (hv : ∀ x ∈ v, x < 2 ^ 64) :
    deserLoop (SerializeVector v) = v := by
  induction v with
  | nil => rfl
  | cons x xs ih =>
      have hx : x < 2 ^ 64 := hv x (List.mem_cons_self x xs)
      have hxs : ∀ y ∈ xs, y < 2 ^ 64 := fun y hy => hv y (List.mem_cons_of_mem x hy)
      simp only [SerializeVector, List.map_cons, List.flatten_cons, f64leBytes,
        List.cons_append, List.nil_append, deserLoop]
      rw [f64ofBytes_f64leBytes hx]
      simp only [SerializeVector] at ih
      simp [ih hxs]

theorem serializeVector_length (v : List Nat) :
    (SerializeVector v).length = v.length * 8 := by
  induction v with
  | nil => rfl
  | cons x xs ih =>
      simp only [SerializeVector, List.map_cons, List.flatten_cons,
        List.length_append, f64leBytes] at *
      simp [ih]
      omega

/-- **C3.** The vector codec round-trips every vector losslessly at the level
of 64-bit IEEE-754 bit patterns — in particular the patterns of ordinary
(non-NaN) values, `+∞`, `−∞` and NaN are all preserved exactly — and
deserialisation rejects any byte sequence whose length is not a multiple of
the 8-byte float width. -/
theorem c3_codec_roundtrip_and_reject (v data : List Nat)
    (hv : ∀ x ∈ v, x < 2 ^ 64) (hlen : data.length % 8 ≠ 0) :
    DeserializeVector (SerializeVector v) = some v ∧
      DeserializeVector data = none := by
  constructor
  · have h8 : (SerializeVector v).length % 8 = 0 := by
      rw [serializeVector_length]; omega
    simp [DeserializeVector, h8, deserLoop_serialize v hv]
  · simp [DeserializeVector, hlen]

/-- **C3 witness.** Concrete run: a vector holding the bit patterns of
`1.5`, `+∞`, `−∞` and a quiet NaN round-trips, and a 9-byte input (not a
multiple of 8) is rejected. -/
theorem c3_codec_witness :
    (∀ x ∈ [0x3FF8000000000000, 0x7FF0000000000000,
            0xFFF0000000000000, 0x7FF8000000000001], x < 2 ^ 64) ∧
    ([(1 : Nat), 2, 3, 4, 5, 6, 7, 8, 9].length % 8 ≠ 0) ∧
    (DeserializeVector (SerializeVector
        [0x3FF8000000000000, 0x7FF0000000000000,
         0xFFF0000000000000, 0x7FF8000000000001]) =
      some [0x3FF8000000000000, 0x7FF0000000000000,
            0xFFF0000000000000, 0x7FF8000000000001] ∧
      DeserializeVector [1, 2, 3, 4, 5, 6, 7, 8, 9] = none) :=
  ⟨by decide, by decide,
    c3_codec_roundtrip_and_reject _ _ (by decide) (by decide)⟩

/-! ## LLM chat retry policy (claim C6)

The `llm` package implementation (`APILLMService.Generate`) is not under
`src/` — only its test file and a design-document interface are.  The retry
policy is therefore modelled from the spec (§4.5): one attempt plus exactly
one retry; any HTTP failure, malformed response, API error body or
empty-choices response counts as a failed attempt; on two failures the
literal fallback string is returned with no error. -/

/-- Outcome of one chat-completion API call: a successful assistant answer,
or a failure (HTTP error, malformed body, API error body, empty choices). -/
inductive ChatOutcome where
  | ok (answer : String)
  | fail
  deriving DecidableEq

/-- Modelled from the spec: the literal user-visible fallback answer. -/
def llmFallback : String := "服务暂时不可用，请稍后重试"

/-- Result of `Generate`: the answer, the number of API calls made, and
whether an error was surfaced to the caller. -/
structure GenerateResult where
  answer : String
  apiCalls : Nat
  isError : Bool
  deriving DecidableEq

/-- Modelled from the spec: `Generate` calls the chat API once; on failure it
retries exactly once; if the retry also fails it returns the fallback string
without an error.  `attempt n` is the outcome of the `n`-th API call. -/
def LLMGenerate (attempt : Nat → ChatOutcome) : GenerateResult :=
  match attempt 0 with
  | .ok a => ⟨a, 1, false⟩
  | .fail =>
    match attempt 1 with
    | .ok a => ⟨a, 2, false⟩
    | .fail => ⟨llmFallback, 2, false⟩

/-- **C6.** If both chat-completion attempts fail, `Generate` makes exactly
two API calls and returns the literal fallback string with no error; if only
the first attempt fails, the retried answer is returned (again with exactly
two calls and no error). -/
theorem c6_llm_retry (attempt : Nat → ChatOutcome) :
    (attempt 0 = .fail → attempt 1 = .fail →
      LLMGenerate attempt = ⟨llmFallback, 2, false⟩) ∧
    (∀ a, attempt 0 = .fail → attempt 1 = .ok a →
      LLMGenerate attempt = ⟨a, 2, false⟩) := by
  constructor
  · intro h0 h1; simp [LLMGenerate, h0, h1]
  · intro a h0 h1; simp [LLMGenerate, h0, h1]

/-- **C6 witness.** Concrete run with a persistently failing API: exactly two
calls are made and the fallback string is returned without error. -/
theorem c6_llm_retry_witness :
    ((fun _ : Nat => ChatOutcome.fail) 0 = ChatOutcome.fail) ∧
    LLMGenerate (fun _ => ChatOutcome.fail) = ⟨llmFallback, 2, false⟩ :=
  ⟨rfl, (c6_llm_retry (fun _ => ChatOutcome.fail)).1 rfl rfl⟩

/-! ## Text chunker (claim C2)

Embedding of `internal/chunker/chunker.go`.  Go strings are byte-indexed;
the model represents the text as a `List Char` and slices it exactly as
`text[start:end]` does. -/

/-- Default number of characters per chunk (`DefaultChunkSize`). -/
def DefaultChunkSize : Int := 512

/-- Default number of overlapping characters (`DefaultOverlap`). -/
def DefaultOverlap : Int := 128

/-- `TextChunker` configuration (fields are Go `int`s). -/
structure TextChunker where
  ChunkSize : Int
  Overlap : Int

/-- A chunk of text produced by `Split`. -/
structure Chunk where
  Text : List Char
  Index : Nat
  DocumentID : String
  deriving DecidableEq

/-- The chunk size after the clamping at the top of `Split`
(`if chunkSize <= 0 { chunkSize = DefaultChunkSize }`). -/
def effChunkSize (tc : TextChunker) : Nat :=
  (if tc.ChunkSize ≤ 0 then DefaultChunkSize else tc.ChunkSize).toNat

/-- The overlap after the clamping in `Split`
(`if overlap < 0 { overlap = 0 }; if overlap >= chunkSize { overlap = chunkSize - 1 }`). -/
def effOverlap (tc : TextChunker) : Nat :=
  min ((if tc.Overlap < 0 then 0 else tc.Overlap).toNat) (effChunkSize tc - 1)

/-- The loop stride `step = chunkSize - overlap`. -/
def effStep (tc : TextChunker) : Nat := effChunkSize tc - effOverlap tc

theorem effChunkSize_pos (tc : TextChunker) : 0 < effChunkSize tc := by
  unfold effChunkSize DefaultChunkSize
  split <;> omega

theorem effOverlap_le (tc : TextChunker) : effOverlap tc ≤ effChunkSize tc - 1 :=
  min_le_right _ _

theorem effStep_pos (tc : TextChunker) : 0 < effStep tc := by
  have h1 := effChunkSize_pos tc
  have h2 := effOverlap_le tc
  unfold effStep
  omega

/-- Go slice `text[a:b]` on a `List Char`. -/
def goSlice (text : List Char) (a b : Nat) : List Char :=
  (text.drop a).take (b - a)

/-- The `for start := 0; start < len(text); start += step` loop of `Split`:
append the chunk `text[start:min(start+chunkSize, len)]`, breaking once the
window reaches end-of-text. -/
def splitLoop (text : List Char) (chunkSize step : Nat) (hstep : 0 < step)
    (documentID : String) (start idx : Nat) : List Chunk :=
  if h : start < text.length then
    if min (start + chunkSize) text.length = text.length then
      [⟨goSlice text start (min (start + chunkSize) text.length), idx, documentID⟩]
    else
      ⟨goSlice text start (min (start + chunkSize) text.length), idx, documentID⟩ ::
        splitLoop text chunkSize step hstep documentID (start + step) (idx + 1)
  else []
termination_by text.length - start

/-- `TextChunker.Split`: divide `text` into chunks of `ChunkSize` characters
with `Overlap` characters of overlap; empty text yields an empty slice. -/
def TextChunker.Split (tc : TextChunker) (text : List Char) (documentID : String) :
    List Chunk :=
  if text.length = 0 then []
  else splitLoop text (effChunkSize tc) (effStep tc) (effStep_pos tc) documentID 0 0


theorem goSlice_take (t : List Char) (a b k : Nat) :
    (goSlice t a b).take k = goSlice t a (min (a + k) b) := by
  unfold goSlice
  rw [List.take_take]
  congr 1
  omega

theorem goSlice_drop (t : List Char) (a b k : Nat) :
    (goSlice t a b).drop k = goSlice t (a + k) b := by
  unfold goSlice
  rw [List.drop_take, List.drop_drop]
  congr 1
  omega

theorem goSlice_length (t : List Char) {a b : Nat} (hab : a ≤ b)
    (hb : b ≤ t.length) : (goSlice t a b).length = b - a := by
  unfold goSlice
  rw [List.length_take, List.length_drop]
  omega

theorem goSlice_append_drop (t : List Char) (a s : Nat) :
    goSlice t a (a + s) ++ t.drop (a + s) = t.drop a := by
  unfold goSlice
  rw [show a + s - a = s by omega, ← List.drop_drop s a t, List.take_append_drop]

theorem goSlice_to_end (t : List Char) (a : Nat) :
    goSlice t a t.length = t.drop a := by
  unfold goSlice
  exact List.take_of_length_le (by rw [List.length_drop])

theorem splitLoop_ne_nil (text : List Char) (cs step : Nat) (hstep : 0 < step)
    (docID : String) (start idx : Nat) (h : start < text.length) :
    splitLoop text cs step hstep docID start idx ≠ [] := by
  rw [splitLoop]
  simp only [dif_pos h]
  split <;> simp

theorem getLast?_cons_ne {α : Type _} {x : α} {l : List α} (h : l ≠ []) :
    (x :: l).getLast? = l.getLast? := by
  cases l with
  | nil => exact absurd rfl h
  | cons y ys => simp [List.getLast?_cons_cons]

theorem splitLoop_last (text : List Char) (cs step : Nat) (hstep : 0 < step)
    (docID : String) (start idx : Nat)
    (h : start < text.length) (hend : text.length ≤ start + cs) :
    splitLoop text cs step hstep docID start idx =
      [⟨goSlice text start text.length, idx, docID⟩] := by
  rw [splitLoop]
  have hm : min (start + cs) text.length = text.length := by omega
  simp [dif_pos h, hm]

theorem splitLoop_cont (text : List Char) (cs step : Nat) (hstep : 0 < step)
    (docID : String) (start idx : Nat)
    (h : start + cs < text.length) :
    splitLoop text cs step hstep docID start idx =
      ⟨goSlice text start (start + cs), idx, docID⟩ ::
        splitLoop text cs step hstep docID (start + step) (idx + 1) := by
  rw [splitLoop]
  have h0 : start < text.length := by omega
  have hm : min (start + cs) text.length = start + cs := by omega
  have hne : ¬ min (start + cs) text.length = text.length := by omega
  rw [dif_pos h0, if_neg hne, hm]

theorem splitLoop_get (text : List Char) (cs step : Nat) (hstep : 0 < step)
    (docID : String) :
    ∀ start idx : Nat, ∀ j : Nat, ∀ a : Chunk,
      (splitLoop text cs step hstep docID start idx)[j]? = some a →
      a = ⟨goSlice text (start + j * step) (min (start + j * step + cs) text.length),
           idx + j, docID⟩ := by
  intro start idx
  induction start, idx using splitLoop.induct text cs step hstep docID with
  | case1 start idx h hm =>
      intro j a ha
      rw [splitLoop, dif_pos h, if_pos hm] at ha
      cases j with
      | zero =>
          simp only [List.getElem?_cons_zero, Option.some.injEq] at ha
          subst ha
          simp [hm]
      | succ j => simp at ha
  | case2 start idx h hm ih =>
      have hlt : start + cs < text.length := by omega
      intro j a ha
      rw [splitLoop_cont text cs step hstep docID start idx hlt] at ha
      cases j with
      | zero =>
          simp only [List.getElem?_cons_zero, Option.some.injEq] at ha
          subst ha
          have hmin : min (start + cs) text.length = start + cs := by omega
          simp [hmin]
      | succ j =>
          simp only [List.getElem?_cons_succ] at ha
          have hrec := ih j a ha
          subst hrec
          rw [show start + step + j * step = start + (j + 1) * step from by ring,
              show idx + 1 + j = idx + (j + 1) from by omega]
  | case3 start idx h =>
      intro j a ha
      rw [splitLoop, dif_neg h] at ha
      simp at ha

/-- The `C₀[:step] ∥ C₁[:step] ∥ … ∥` (whole last chunk) reconstruction of a
chunk sequence. -/
def reconstr (step : Nat) (cs : List Chunk) : List Char :=
  (cs.dropLast.map (fun ch => ch.Text.take step)).flatten ++
    ((cs.getLast?.map (fun ch => ch.Text)).getD [])

theorem splitLoop_reconstr (text : List Char) (cs step : Nat) (hstep : 0 < step)
    (hsc : step ≤ cs) (docID : String) :
    ∀ start idx : Nat, start < text.length →
      reconstr step (splitLoop text cs step hstep docID start idx) =
        text.drop start := by
  intro start idx
  induction start, idx using splitLoop.induct text cs step hstep docID with
  | case1 start idx h hm =>
      intro _
      rw [splitLoop, dif_pos h, if_pos hm, hm]
      simp [reconstr, goSlice_to_end]
  | case2 start idx h hm ih =>
      intro _
      have hlt : start + cs < text.length := by omega
      have hlt2 : start + step < text.length := by omega
      rw [splitLoop_cont text cs step hstep docID start idx hlt]
      have hne := splitLoop_ne_nil text cs step hstep docID (start + step) (idx + 1) hlt2
      have hsplit : ∀ c0 : Chunk, ∀ rest : List Chunk, rest ≠ [] →
          reconstr step (c0 :: rest) = c0.Text.take step ++ reconstr step rest := by
        intro c0 rest hr
        unfold reconstr
        rw [List.dropLast_cons_of_ne_nil hr, getLast?_cons_ne hr]
        simp [List.append_assoc]
      rw [hsplit _ _ hne, ih hlt2]
      have htake : (goSlice text start (start + cs)).take step =
          goSlice text start (start + step) := by
        rw [goSlice_take]
        congr 1
        omega
      rw [htake]
      exact goSlice_append_drop text start step
  | case3 start idx h =>
      intro hc
      exact absurd hc h

theorem splitLoop_overlap (text : List Char) (cs step : Nat) (hstep : 0 < step)
    (hsc : step ≤ cs) (docID : String) :
    ∀ start idx : Nat, ∀ j : Nat, ∀ a b : Chunk,
      (splitLoop text cs step hstep docID start idx)[j]? = some a →
      (splitLoop text cs step hstep docID start idx)[j + 1]? = some b →
      a.Text.drop (a.Text.length - (cs - step)) = b.Text.take (cs - step) := by
  intro start idx
  induction start, idx using splitLoop.induct text cs step hstep docID with
  | case1 start idx h hm =>
      intro j a b ha hb
      rw [splitLoop, dif_pos h, if_pos hm] at hb
      simp at hb
  | case2 start idx h hm ih =>
      have hlt : start + cs < text.length := by omega
      intro j a b ha hb
      rw [splitLoop_cont text cs step hstep docID start idx hlt] at ha hb
      cases j with
      | zero =>
          simp only [List.getElem?_cons_zero, Option.some.injEq] at ha
          simp only [List.getElem?_cons_succ] at hb
          subst ha
          have hbchar :=
            splitLoop_get text cs step hstep docID (start + step) (idx + 1) 0 b hb
          subst hbchar
          simp only [Nat.zero_mul, Nat.add_zero]
          have hlen0 := goSlice_length text
            (show start ≤ start + cs by omega)
            (show start + cs ≤ text.length by omega)
          have hlen : (goSlice text start (start + cs)).length = cs := by omega
          rw [hlen, goSlice_drop, goSlice_take]
          congr 1 <;> omega
      | succ j =>
          simp only [List.getElem?_cons_succ] at ha hb
          exact ih j a b ha hb
  | case3 start idx h =>
      intro j a b ha hb
      rw [splitLoop, dif_neg h] at ha
      simp at ha

/-- **C2.** For every text and document id, with the effective (clamped)
chunk size `c ≥ 1`, overlap `w ≤ c − 1` and stride `step = c − w`,
`TextChunker.Split` returns chunks `Cᵢ = T[i·step : min(i·step+c, |T|)]` with
dense 0-based indices; empty text yields an empty sequence; concatenating
each chunk's first `step` characters followed by the whole last chunk
reconstructs `T` without gaps; and the last `w` characters of each
non-final chunk equal the first `w` characters of its successor. -/
theorem c2_chunker_split (tc : TextChunker) (text : List Char) (docID : String) :
    1 ≤ effChunkSize tc ∧
    effOverlap tc ≤ effChunkSize tc - 1 ∧
    (∀ j : Nat, ∀ a : Chunk, (tc.Split text docID)[j]? = some a →
      a = ⟨goSlice text (j * effStep tc)
             (min (j * effStep tc + effChunkSize tc) text.length), j, docID⟩) ∧
    (text = [] → tc.Split text docID = []) ∧
    reconstr (effStep tc) (tc.Split text docID) = text ∧
    (∀ j : Nat, ∀ a b : Chunk, (tc.Split text docID)[j]? = some a →
      (tc.Split text docID)[j + 1]? = some b →
      a.Text.drop (a.Text.length - effOverlap tc) =
        b.Text.take (effOverlap tc)) := by
  have hc := effChunkSize_pos tc
  have hw := effOverlap_le tc
  have hsc : effStep tc ≤ effChunkSize tc := Nat.sub_le _ _
  have hwstep : effChunkSize tc - effStep tc = effOverlap tc := by
    unfold effStep
    omega
  refine ⟨hc, hw, ?_, ?_, ?_, ?_⟩
  · intro j a ha
    by_cases hempty : text.length = 0
    · unfold TextChunker.Split at ha
      rw [if_pos hempty] at ha
      simp at ha
    · unfold TextChunker.Split at ha
      rw [if_neg hempty] at ha
      have := splitLoop_get text (effChunkSize tc) (effStep tc) (effStep_pos tc)
        docID 0 0 j a ha
      simpa using this
  · intro h
    unfold TextChunker.Split
    rw [if_pos (by simp [h])]
  · by_cases hempty : text.length = 0
    · unfold TextChunker.Split
      rw [if_pos hempty]
      have : text = [] := List.length_eq_zero.mp hempty
      simp [reconstr, this]
    · unfold TextChunker.Split
      rw [if_neg hempty]
      have := splitLoop_reconstr text (effChunkSize tc) (effStep tc)
        (effStep_pos tc) hsc docID 0 0 (by omega)
      simpa using this
  · intro j a b ha hb
    by_cases hempty : text.length = 0
    · unfold TextChunker.Split at ha
      rw [if_pos hempty] at ha
      simp at ha
    · unfold TextChunker.Split at ha hb
      rw [if_neg hempty] at ha hb
      have := splitLoop_overlap text (effChunkSize tc) (effStep tc)
        (effStep_pos tc) hsc docID 0 0 j a b ha hb
      rwa [hwstep] at this

/-- **C2 witness.** The E2E-1 scenario of the spec: `"abcdefghij"` with
`chunk_size=5, overlap=2` splits into `"abcde", "defgh", "ghij"` with indices
`0, 1, 2`, and the overlap property holds between chunks 0 and 1. -/
theorem c2_chunker_split_witness :
    TextChunker.Split ⟨5, 2⟩ "abcdefghij".toList "d1" =
      [⟨"abcde".toList, 0, "d1"⟩, ⟨"defgh".toList, 1, "d1"⟩,
       ⟨"ghij".toList, 2, "d1"⟩] ∧
    "abcde".toList.drop ("abcde".toList.length - effOverlap ⟨5, 2⟩) =
      "defgh".toList.take (effOverlap ⟨5, 2⟩) := by
  have hs : TextChunker.Split ⟨5, 2⟩ "abcdefghij".toList "d1" =
      [⟨"abcde".toList, 0, "d1"⟩, ⟨"defgh".toList, 1, "d1"⟩,
       ⟨"ghij".toList, 2, "d1"⟩] := by
    simp only [TextChunker.Split]
    norm_num
    rw [splitLoop]
    norm_num [goSlice]
    rw [splitLoop]
    norm_num [goSlice]
    rw [splitLoop]
    norm_num [goSlice]
    decide
  have h0 : (TextChunker.Split ⟨5, 2⟩ "abcdefghij".toList "d1")[0]? =
      some ⟨"abcde".toList, 0, "d1"⟩ := by rw [hs]; rfl
  have h1 : (TextChunker.Split ⟨5, 2⟩ "abcdefghij".toList "d1")[0 + 1]? =
      some ⟨"defgh".toList, 1, "d1"⟩ := by rw [hs]; rfl
  exact ⟨hs,
    (c2_chunker_split ⟨5, 2⟩ "abcdefghij".toList "d1").2.2.2.2.2 0 _ _ h0 h1⟩

/-! ## Parser text cleanup (claims C8)

Embedding of `CleanText` from the legacy parser package: remove the control
characters matched by `[\x00-\x08\x0B\x0C\x0E-\x1F\x7F]` (note: the class
skips `\r` = 0x0D), then per line collapse `[ \t]+` runs to one space and
`strings.TrimSpace` the line, join lines with `\n`, collapse runs of three or
more newlines to exactly two, and trim the whole output. -/

/-- The character class of the control-character removal regex
(`[\x00-\x08\x0B\x0C\x0E-\x1F\x7F]`). -/
def isRemovedCtl (c : Char) : Bool :=
  c.toNat ≤ 0x08 || c.toNat == 0x0B || c.toNat == 0x0C ||
    (0x0E ≤ c.toNat && c.toNat ≤ 0x1F) || c.toNat == 0x7F

/-- Go's `unicode.IsSpace` (the white-space set used by
`strings.TrimSpace`). -/
def goIsSpace (c : Char) : Bool :=
  c == '\t' || c == '\n' || c.toNat == 0x0B || c.toNat == 0x0C ||
    c.toNat == 0x0D || c == ' ' || c.toNat == 0x85 || c.toNat == 0xA0 ||
    c.toNat == 0x1680 || (0x2000 ≤ c.toNat && c.toNat ≤ 0x200A) ||
    c.toNat == 0x2028 || c.toNat == 0x2029 || c.toNat == 0x202F ||
    c.toNat == 0x205F || c.toNat == 0x3000

/-- Go's `strings.Split(text, "\n")`. -/
def splitNl : List Char → List (List Char)
  | [] => [[]]
  | c :: rest =>
    if c = '\n' then [] :: splitNl rest
    else
      match splitNl rest with
      | [] => [[c]]
      | h :: t => (c :: h) :: t

/-- The per-line regex replacement `[ \t]+ → " "`.  The boolean argument
records whether the previous input character belonged to a space/tab run. -/
def collapseSpaces : Bool → List Char → List Char
  | _, [] => []
  | inRun, c :: rest =>
    if c = ' ' ∨ c = '\t' then
      if inRun then collapseSpaces true rest
      else ' ' :: collapseSpaces true rest
    else c :: collapseSpaces false rest

/-- Drop the trailing characters satisfying `p`. -/
def dropLastWhile (p : Char → Bool) (l : List Char) : List Char :=
  (l.reverse.dropWhile p).reverse

/-- Go's `strings.TrimSpace`. -/
def goTrimSpace (l : List Char) : List Char :=
  dropLastWhile goIsSpace (l.dropWhile goIsSpace)

/-- Go's `strings.Join(lines, "\n")`. -/
def joinNl : List (List Char) → List Char
  | [] => []
  | [l] => l
  | l :: rest => l ++ '\n' :: joinNl rest

/-- The regex replacement `\n{3,} → "\n\n"`.  The counter argument is the
number of newlines already emitted in the current run. -/
def squeezeNl : Nat → List Char → List Char
  | _, [] => []
  | run, c :: rest =>
    if c = '\n' then
      if 2 ≤ run then squeezeNl run rest
      else '\n' :: squeezeNl (run + 1) rest
    else c :: squeezeNl 0 rest

/-- `CleanText` (legacy parser package): remove control characters except
`\n`, `\t` (and, as the regex is written, `\r`); collapse space/tab runs and
trim each line; collapse 3+ newlines to 2; trim the result. -/
def CleanText (text : List Char) : List Char :=
  let t1 := text.filter (fun c => !(isRemovedCtl c))
  let lines := (splitNl t1).map (fun l => goTrimSpace (collapseSpaces false l))
  goTrimSpace (squeezeNl 0 (joinNl lines))

example : CleanText "hello    world".toList = "hello world".toList := by decide
example : CleanText "hello\t\tworld".toList = "hello world".toList := by decide
example : CleanText "  hello world  ".toList = "hello world".toList := by decide
example : CleanText "hello\n\n\n\nworld".toList = "hello\n\nworld".toList := by decide
example : CleanText "hello\x00\x01\x02world".toList = "helloworld".toList := by decide
example : CleanText "   \t\t  \n\n  ".toList = [] := by decide
example : CleanText "  hello \x00  \t world \x7F  ".toList = "hello world".toList := by decide

/-- **C8 counterexample.** The control-character class of `CleanText` does
not include `\r` (0x0D): on input `"a\rb"` the carriage return survives
inside the line, so the output contains a control character other than `\n`
and `\t`, refuting the claim as stated. -/
theorem c8_cleanText_counterexample :
    CleanText "a\rb".toList = "a\rb".toList ∧
    ¬ (∀ c ∈ CleanText "a\rb".toList,
        (c.toNat < 32 ∨ c.toNat = 127) → c = '\n' ∨ c = '\t') := by
  decide

/-- The pairwise (adjacent-character) invariant of cleaned text: no space
character other than `\n` directly after or before a newline (so no line has
leading or trailing whitespace), and no two adjacent plain spaces. -/
def cleanPairOk (a b : Char) : Prop :=
  (a = '\n' → goIsSpace b → b = '\n') ∧
  (b = '\n' → goIsSpace a → a = '\n') ∧
  ¬(a = ' ' ∧ b = ' ')

instance (a b : Char) : Decidable (cleanPairOk a b) := by
  unfold cleanPairOk
  infer_instance

/-- Scan for three consecutive newlines (sliding 3-character window). -/
def hasTripleNl : List Char → Bool
  | a :: b :: c :: rest =>
      (a == '\n' && b == '\n' && c == '\n') || hasTripleNl (b :: c :: rest)
  | _ => false

theorem mem_collapseSpaces : ∀ (b : Bool) (l : List Char) (c : Char),
    c ∈ collapseSpaces b l → c = ' ' ∨ c ∈ l := by
  intro b l
  induction l generalizing b with
  | nil =>
      intro c hc
      rw [show collapseSpaces b [] = [] from by cases b <;> rfl] at hc
      cases hc
  | cons a rest ih =>
      intro c hc
      unfold collapseSpaces at hc
      by_cases ha : a = ' ' ∨ a = '\t'
      · rw [if_pos ha] at hc
        cases b with
        | true =>
            rw [if_pos rfl] at hc
            rcases ih true c hc with h | h
            · exact Or.inl h
            · exact Or.inr (List.mem_cons_of_mem a h)
        | false =>
            rw [if_neg Bool.false_ne_true] at hc
            rcases List.mem_cons.mp hc with h | h
            · exact Or.inl h
            · rcases ih true c h with h' | h'
              · exact Or.inl h'
              · exact Or.inr (List.mem_cons_of_mem a h')
      · rw [if_neg ha] at hc
        rcases List.mem_cons.mp hc with h | h
        · exact Or.inr (h ▸ List.mem_cons_self a rest)
        · rcases ih false c h with h' | h'
          · exact Or.inl h'
          · exact Or.inr (List.mem_cons_of_mem a h')

theorem dropLastWhile_pref (p : Char → Bool) (l : List Char) :
    dropLastWhile p l <+: l := by
  unfold dropLastWhile
  have h := List.dropWhile_suffix (l := l.reverse) p
  exact List.reverse_suffix.mp (by simpa using h)

theorem goTrimSpace_inf (l : List Char) : goTrimSpace l <:+: l := by
  unfold goTrimSpace
  exact ((dropLastWhile_pref goIsSpace _).isInfix).trans
    ((List.dropWhile_suffix goIsSpace).isInfix)

theorem mem_goTrimSpace {l : List Char} {c : Char} (h : c ∈ goTrimSpace l) :
    c ∈ l := (goTrimSpace_inf l).mem h

theorem mem_squeezeNl : ∀ (n : Nat) (l : List Char) (c : Char),
    c ∈ squeezeNl n l → c ∈ l := by
  intro n l
  induction l generalizing n with
  | nil => intro c hc; simp [squeezeNl] at hc
  | cons a rest ih =>
      intro c hc
      unfold squeezeNl at hc
      by_cases ha : a = '\n'
      · rw [if_pos ha] at hc
        by_cases hrun : 2 ≤ n
        · rw [if_pos hrun] at hc
          exact List.mem_cons_of_mem a (ih n c hc)
        · rw [if_neg hrun] at hc
          rcases List.mem_cons.mp hc with h | h
          · rw [h, ← ha]; exact List.mem_cons_self a rest
          · exact List.mem_cons_of_mem a (ih (n + 1) c h)
      · rw [if_neg ha] at hc
        rcases List.mem_cons.mp hc with h | h
        · exact h ▸ List.mem_cons_self a rest
        · exact List.mem_cons_of_mem a (ih 0 c h)

theorem splitNl_chars : ∀ (t : List Char), ∀ l ∈ splitNl t, ∀ c ∈ l,
    c ∈ t ∧ c ≠ '\n' := by
  intro t
  induction t with
  | nil =>
      intro l hl c hc
      simp only [splitNl, List.mem_singleton] at hl
      subst hl
      simp at hc
  | cons a rest ih =>
      intro l hl c hc
      unfold splitNl at hl
      by_cases ha : a = '\n'
      · rw [if_pos ha] at hl
        rcases List.mem_cons.mp hl with h | h
        · subst h; simp at hc
        · have := ih l h c hc
          exact ⟨List.mem_cons_of_mem a this.1, this.2⟩
      · rw [if_neg ha] at hl
        rcases hsp : splitNl rest with _ | ⟨h0, t0⟩
        · rw [hsp] at hl
          simp only [List.mem_singleton] at hl
          subst hl
          simp only [List.mem_singleton] at hc
          rw [hc]
          exact ⟨List.mem_cons_self a rest, ha⟩
        · rw [hsp] at hl
          rcases List.mem_cons.mp hl with h | h
          · subst h
            rcases List.mem_cons.mp hc with h' | h'
            · subst h'; exact ⟨List.mem_cons_self c rest, ha⟩
            · have := ih h0 (hsp ▸ List.mem_cons_self h0 t0) c h'
              exact ⟨List.mem_cons_of_mem a this.1, this.2⟩
          · have := ih l (hsp ▸ List.mem_cons_of_mem h0 h) c hc
            exact ⟨List.mem_cons_of_mem a this.1, this.2⟩

theorem mem_joinNl : ∀ (ls : List (List Char)) (c : Char),
    c ∈ joinNl ls → c = '\n' ∨ ∃ l ∈ ls, c ∈ l := by
  intro ls
  induction ls with
  | nil => intro c hc; simp [joinNl] at hc
  | cons l rest ih =>
      intro c hc
      cases rest with
      | nil =>
          exact Or.inr ⟨l, List.mem_cons_self l [], by simpa [joinNl] using hc⟩
      | cons l2 rest2 =>
          rw [show joinNl (l :: l2 :: rest2) = l ++ '\n' :: joinNl (l2 :: rest2)
            from rfl] at hc
          rcases List.mem_append.mp hc with h | h
          · exact Or.inr ⟨l, List.mem_cons_self l _, h⟩
          · rcases List.mem_cons.mp h with h' | h'
            · exact Or.inl h'
            · rcases ih c h' with h'' | ⟨l', hl', hc'⟩
              · exact Or.inl h''
              · exact Or.inr ⟨l', List.mem_cons_of_mem l hl', hc'⟩

theorem head?_dropWhile {p : Char → Bool} {l : List Char} {c : Char}
    (h : (l.dropWhile p).head? = some c) : p c = false := by
  have := List.head?_dropWhile_not p l
  rw [h] at this
  exact this

theorem head?_of_pref {l' l : List Char} {c : Char} (hp : l' <+: l)
    (h : l'.head? = some c) : l.head? = some c := by
  rcases hp with ⟨t, rfl⟩
  cases l' with
  | nil => simp at h
  | cons a r => simpa using h

theorem goTrimSpace_head {l : List Char} {c : Char}
    (h : (goTrimSpace l).head? = some c) : goIsSpace c = false := by
  unfold goTrimSpace at h
  exact head?_dropWhile
    (head?_of_pref (dropLastWhile_pref goIsSpace _) h)

theorem goTrimSpace_getLast {l : List Char} {c : Char}
    (h : (goTrimSpace l).getLast? = some c) : goIsSpace c = false := by
  unfold goTrimSpace dropLastWhile at h
  rw [List.getLast?_reverse] at h
  exact head?_dropWhile h

theorem collapseSpaces_true_head : ∀ (l : List Char) (c : Char),
    (collapseSpaces true l).head? = some c → ¬(c = ' ' ∨ c = '\t') := by
  intro l
  induction l with
  | nil => intro c hc; simp [collapseSpaces] at hc
  | cons a rest ih =>
      intro c hc
      unfold collapseSpaces at hc
      by_cases ha : a = ' ' ∨ a = '\t'
      · rw [if_pos ha, if_pos rfl] at hc
        exact ih c hc
      · rw [if_neg ha] at hc
        simp only [List.head?_cons, Option.some.injEq] at hc
        exact hc ▸ ha

theorem chain'_collapseSpaces : ∀ (b : Bool) (l : List Char),
    List.Chain' (fun a b => ¬(a = ' ' ∧ b = ' ')) (collapseSpaces b l) := by
  intro b l
  induction l generalizing b with
  | nil =>
      rw [show collapseSpaces b [] = [] from by cases b <;> rfl]
      exact List.chain'_nil
  | cons a rest ih =>
      unfold collapseSpaces
      by_cases ha : a = ' ' ∨ a = '\t'
      · rw [if_pos ha]
        cases b with
        | true => rw [if_pos rfl]; exact ih true
        | false =>
            rw [if_neg Bool.false_ne_true]
            rw [List.chain'_cons']
            refine ⟨?_, ih true⟩
            intro y hy
            have := collapseSpaces_true_head rest y hy
            intro ⟨_, hy'⟩
            exact this (Or.inl hy')
      · rw [if_neg ha]
        rw [List.chain'_cons']
        refine ⟨?_, ih false⟩
        intro y hy
        intro ⟨ha', _⟩
        exact ha (Or.inl ha')

/-- Invariant of each cleaned line: no newline inside, no whitespace at
either end, no two adjacent spaces. -/
def lineOk (l : List Char) : Prop :=
  '\n' ∉ l ∧
  (∀ c, l.head? = some c → goIsSpace c = false) ∧
  (∀ c, l.getLast? = some c → goIsSpace c = false) ∧
  List.Chain' (fun a b => ¬(a = ' ' ∧ b = ' ')) l

theorem lineOk_cleaned (l₀ : List Char) (h : '\n' ∉ l₀) :
    lineOk (goTrimSpace (collapseSpaces false l₀)) := by
  refine ⟨?_, ?_, ?_, ?_⟩
  · intro hmem
    rcases mem_collapseSpaces false l₀ '\n' (mem_goTrimSpace hmem) with h' | h'
    · simp at h'
    · exact h h'
  · intro c hc; exact goTrimSpace_head hc
  · intro c hc; exact goTrimSpace_getLast hc
  · exact List.Chain'.infix (chain'_collapseSpaces false l₀) (goTrimSpace_inf _)

theorem chain'_cleanPair_of_line : ∀ l : List Char, lineOk l →
    List.Chain' cleanPairOk l := by
  intro l hl
  obtain ⟨hnl, _, _, hnds⟩ := hl
  clear * - hnl hnds
  induction l with
  | nil => exact List.chain'_nil
  | cons a rest ih =>
      rw [List.chain'_cons'] at hnds ⊢
      refine ⟨?_, ih (fun hm => hnl (List.mem_cons_of_mem a hm)) hnds.2⟩
      intro y hy
      have hyrest : y ∈ rest := by
        cases rest with
        | nil => simp at hy
        | cons b t =>
            simp only [List.head?_cons, Option.mem_def, Option.some.injEq] at hy
            rw [← hy]; exact List.mem_cons_self b t
      refine ⟨?_, ?_, hnds.1 y hy⟩
      · intro ha
        exact absurd (ha ▸ List.mem_cons_self a rest) hnl
      · intro hy'
        exact absurd (hy' ▸ List.mem_cons_of_mem a hyrest) hnl

theorem joinNl_head : ∀ ls : List (List Char),
    (∀ l ∈ ls, ∀ c, l.head? = some c → goIsSpace c = false) →
    ∀ c, (joinNl ls).head? = some c → goIsSpace c = false ∨ c = '\n' := by
  intro ls
  induction ls with
  | nil => intro _ c hc; simp [joinNl] at hc
  | cons l rest ih =>
      intro h c hc
      cases rest with
      | nil =>
          exact Or.inl (h l (List.mem_cons_self l []) c (by simpa [joinNl] using hc))
      | cons l2 r2 =>
          rw [show joinNl (l :: l2 :: r2) = l ++ '\n' :: joinNl (l2 :: r2)
            from rfl] at hc
          cases l with
          | nil =>
              simp only [List.nil_append, List.head?_cons,
                Option.some.injEq] at hc
              exact Or.inr hc.symm
          | cons a t =>
              simp only [List.cons_append, List.head?_cons,
                Option.some.injEq] at hc
              exact Or.inl (h (a :: t) (List.mem_cons_self _ _) c
                (by rw [List.head?_cons, hc]))

theorem chain'_joinNl : ∀ ls : List (List Char), (∀ l ∈ ls, lineOk l) →
    List.Chain' cleanPairOk (joinNl ls) := by
  intro ls
  induction ls with
  | nil => intro _; exact List.chain'_nil
  | cons l rest ih =>
      intro h
      cases rest with
      | nil =>
          exact chain'_cleanPair_of_line l (h l (List.mem_cons_self l []))
      | cons l2 r2 =>
          rw [show joinNl (l :: l2 :: r2) = l ++ '\n' :: joinNl (l2 :: r2)
            from rfl]
          rw [List.chain'_append]
          have hrest : ∀ l' ∈ l2 :: r2, lineOk l' :=
            fun l' hl' => h l' (List.mem_cons_of_mem l hl')
          refine ⟨chain'_cleanPair_of_line l (h l (List.mem_cons_self l _)),
            ?_, ?_⟩
          · rw [List.chain'_cons']
            refine ⟨?_, ih hrest⟩
            intro y hy
            have := joinNl_head (l2 :: r2)
              (fun l' hl' => (hrest l' hl').2.1) y hy
            refine ⟨?_, fun _ _ => rfl, ?_⟩
            · intro _ hsy
              rcases this with h' | h'
              · rw [h'] at hsy; cases hsy
              · exact h'
            · intro ⟨_, hy'⟩
              rcases this with h' | h'
              · rw [hy'] at h'; simp [goIsSpace] at h'
              · rw [hy'] at h'; cases h'
          · intro x hx y hy
            simp only [List.head?_cons, Option.mem_def,
              Option.some.injEq] at hy
            subst hy
            have hxs : goIsSpace x = false :=
              (h l (List.mem_cons_self l _)).2.2.1 x hx
            refine ⟨fun _ _ => rfl, ?_, ?_⟩
            · intro _ hsx
              rw [hxs] at hsx; cases hsx
            · intro ⟨_, h2⟩
              cases h2

theorem squeezeNl_head_lt2 {n : Nat} (hn : n < 2) (l : List Char) :
    (squeezeNl n l).head? = l.head? := by
  cases l with
  | nil => rfl
  | cons a rest =>
      unfold squeezeNl
      by_cases ha : a = '\n'
      · rw [if_pos ha, if_neg (by omega), List.head?_cons, List.head?_cons, ha]
      · rw [if_neg ha]
        simp

theorem squeezeNl_chain_head : ∀ (l : List Char) (n : Nat),
    List.Chain' cleanPairOk l →
    List.Chain' cleanPairOk (squeezeNl n l) ∧
    (∀ c, (squeezeNl n l).head? = some c →
      l.head? = some c ∨ cleanPairOk '\n' c) := by
  intro l
  induction l with
  | nil => intro n _; exact ⟨List.chain'_nil, by intro c hc; simp [squeezeNl] at hc⟩
  | cons a rest ih =>
      intro n hch
      rw [List.chain'_cons'] at hch
      unfold squeezeNl
      by_cases ha : a = '\n'
      · rw [if_pos ha]
        by_cases hrun : 2 ≤ n
        · rw [if_pos hrun]
          refine ⟨(ih n hch.2).1, ?_⟩
          intro c hc
          rcases (ih n hch.2).2 c hc with h | h
          · exact Or.inr (ha ▸ hch.1 c h)
          · exact Or.inr h
        · rw [if_neg hrun]
          constructor
          · rw [List.chain'_cons']
            refine ⟨?_, (ih (n + 1) hch.2).1⟩
            intro y hy
            rcases (ih (n + 1) hch.2).2 y hy with h | h
            · exact ha ▸ hch.1 y h
            · exact h
          · intro c hc
            simp only [List.head?_cons, Option.some.injEq] at hc
            exact Or.inl (by rw [List.head?_cons, ← hc, ha])
      · rw [if_neg ha]
        constructor
        · rw [List.chain'_cons']
          refine ⟨?_, (ih 0 hch.2).1⟩
          intro y hy
          rw [squeezeNl_head_lt2 (by omega)] at hy
          exact hch.1 y hy
        · intro c hc
          simp only [List.head?_cons, Option.some.injEq] at hc
          exact Or.inl (by rw [List.head?_cons, hc])

/-- Number of leading newlines. -/
def leadNl (l : List Char) : Nat :=
  (l.takeWhile (fun c => c == '\n')).length

theorem hasTripleNl_short {l : List Char} (h : l.length < 3) :
    hasTripleNl l = false := by
  match l, h with
  | [], _ => rfl
  | [_], _ => rfl
  | [_, _], _ => rfl

theorem squeezeNl_lead_triple : ∀ (l : List Char) (n : Nat),
    leadNl (squeezeNl n l) + min n 2 ≤ 2 ∧
    hasTripleNl (squeezeNl n l) = false := by
  intro l
  induction l with
  | nil => intro n; exact ⟨by simp [squeezeNl, leadNl], rfl⟩
  | cons a rest ih =>
      intro n
      unfold squeezeNl
      by_cases ha : a = '\n'
      · rw [if_pos ha]
        by_cases hrun : 2 ≤ n
        · rw [if_pos hrun]
          exact ih n
        · rw [if_neg hrun]
          have ihn := ih (n + 1)
          constructor
          · have hlead : leadNl ('\n' :: squeezeNl (n + 1) rest) =
                1 + leadNl (squeezeNl (n + 1) rest) := by
              unfold leadNl
              rw [List.takeWhile_cons]
              simp
              omega
            rw [hlead]
            omega
          · rcases hout : squeezeNl (n + 1) rest with _ | ⟨b, tl⟩
            · rfl
            · rcases tl with _ | ⟨c, tl2⟩
              · rfl
              · show ((('\n' : Char) == '\n' && b == '\n' && c == '\n') ||
                  hasTripleNl (b :: c :: tl2)) = false
                have htr : hasTripleNl (b :: c :: tl2) = false := hout ▸ ihn.2
                rw [htr]
                have hlead := ihn.1
                rw [hout] at hlead
                by_cases hb : b = '\n'
                · by_cases hc : c = '\n'
                  · exfalso
                    unfold leadNl at hlead
                    rw [List.takeWhile_cons] at hlead
                    simp only [hb, beq_self_eq_true, if_true] at hlead
                    rw [List.takeWhile_cons] at hlead
                    simp only [hc, beq_self_eq_true, if_true] at hlead
                    simp at hlead
                    omega
                  · simp [hc]
                · simp [hb]
      · rw [if_neg ha]
        constructor
        · unfold leadNl
          rw [List.takeWhile_cons]
          simp only [beq_iff_eq, ha, if_false]
          simp
        · rcases hout : squeezeNl 0 rest with _ | ⟨b, tl⟩
          · rfl
          · rcases tl with _ | ⟨c, tl2⟩
            · rfl
            · show ((a == '\n' && b == '\n' && c == '\n') ||
                hasTripleNl (b :: c :: tl2)) = false
              have htr : hasTripleNl (b :: c :: tl2) = false :=
                hout ▸ (ih 0).2
              rw [htr]
              simp [ha]

theorem char_eq_of_toNat {c d : Char} (h : c.toNat = d.toNat) : c = d :=
  Char.ext (UInt32.ext h)

theorem hasTripleNl_append_left : ∀ (x y : List Char),
    hasTripleNl (x ++ y) = false → hasTripleNl y = false := by
  intro x
  induction x with
  | nil => intro y h; simpa using h
  | cons a x' ih =>
      intro y h
      refine ih y ?_
      rcases hxy : x' ++ y with _ | ⟨b, tl⟩
      · exact hasTripleNl_short (by simp)
      · rcases tl with _ | ⟨c, tl2⟩
        · exact hasTripleNl_short (by simp)
        · rw [List.cons_append, hxy] at h
          show hasTripleNl (b :: c :: tl2) = false
          revert h
          show ((a == '\n' && b == '\n' && c == '\n') ||
            hasTripleNl (b :: c :: tl2)) = false → _
          intro h
          exact (Bool.or_eq_false_iff.mp h).2

theorem hasTripleNl_of_pref : ∀ (x y : List Char),
    hasTripleNl x = true → hasTripleNl (x ++ y) = true := by
  intro x
  induction x with
  | nil => intro y h; simp [hasTripleNl] at h
  | cons a x' ih =>
      intro y h
      rcases x' with _ | ⟨b, tl⟩
      · simp [hasTripleNl] at h
      · rcases tl with _ | ⟨c, tl2⟩
        · simp [hasTripleNl] at h
        · have h' : ((a == '\n' && b == '\n' && c == '\n') ||
              hasTripleNl (b :: c :: tl2)) = true := h
          rcases Bool.or_eq_true_iff.mp h' with h'' | h''
          · show ((a == '\n' && b == '\n' && c == '\n') ||
              hasTripleNl ((b :: c :: tl2) ++ y)) = true
            rw [h'']
            rfl
          · show ((a == '\n' && b == '\n' && c == '\n') ||
              hasTripleNl ((b :: c :: tl2) ++ y)) = true
            have := ih y h''
            simp only [List.cons_append] at this ⊢
            rw [this]
            simp

theorem hasTripleNl_of_inf {l' l : List Char} (hinf : l' <:+: l)
    (h : hasTripleNl l = false) : hasTripleNl l' = false := by
  rcases hinf with ⟨s, t, rfl⟩
  have h1 : hasTripleNl (l' ++ t) = false :=
    hasTripleNl_append_left s _ (by rw [← List.append_assoc]; exact h)
  by_contra hc
  have : hasTripleNl l' = true := by
    cases hx : hasTripleNl l'
    · exact absurd hx hc
    · rfl
  rw [hasTripleNl_of_pref l' t this] at h1
  cases h1

/-- **C8 (amended).** For every input, the output of `CleanText` contains no
control characters other than `\n`, `\t` and `\r` (the carriage return is the
amendment: the removal regex deliberately skips `0x0D`); no line of the
output has leading or trailing whitespace and no two adjacent spaces (the
`cleanPairOk` chain plus the whitespace-free first and last character); and
the output has no run of three or more consecutive newlines. -/
theorem c8_cleanText_amended (text : List Char) :
    (∀ c ∈ CleanText text, (c.toNat < 32 ∨ c.toNat = 127) →
      c = '\n' ∨ c = '\t' ∨ c = '\r') ∧
    List.Chain' cleanPairOk (CleanText text) ∧
    (∀ c, (CleanText text).head? = some c → goIsSpace c = false) ∧
    (∀ c, (CleanText text).getLast? = some c → goIsSpace c = false) ∧
    hasTripleNl (CleanText text) = false := by
  have hlines : ∀ l ∈ (splitNl (text.filter (fun c => !(isRemovedCtl c)))).map
      (fun l => goTrimSpace (collapseSpaces false l)), lineOk l := by
    intro l hl
    rcases List.mem_map.mp hl with ⟨l₀, hl₀, rfl⟩
    refine lineOk_cleaned l₀ (fun hnl => ?_)
    exact (splitNl_chars _ l₀ hl₀ '\n' hnl).2 rfl
  refine ⟨?_, ?_, ?_, ?_, ?_⟩
  · intro c hc hctl
    simp only [CleanText] at hc
    have h1 := mem_squeezeNl _ _ _ (mem_goTrimSpace hc)
    rcases mem_joinNl _ c h1 with h2 | ⟨l, hl, hcl⟩
    · exact Or.inl h2
    · rcases List.mem_map.mp hl with ⟨l₀, hl₀, rfl⟩
      rcases mem_collapseSpaces false l₀ c (mem_goTrimSpace hcl) with hsp | hmem
      · rw [hsp] at hctl; simp at hctl
      · have hch := splitNl_chars _ l₀ hl₀ c hmem
        have hfil := List.mem_filter.mp hch.1
        have hrem : isRemovedCtl c = false := by
          rcases hb : isRemovedCtl c
          · rfl
          · rw [hb] at hfil; simp at hfil
        simp only [isRemovedCtl, Bool.or_eq_false_iff, Bool.and_eq_false_iff,
          decide_eq_false_iff_not, beq_eq_false_iff_ne, ne_eq,
          Nat.not_le] at hrem
        have h9 : c.toNat = 9 ∨ c.toNat = 10 ∨ c.toNat = 13 := by omega
        rcases h9 with h | h | h
        · exact Or.inr (Or.inl (char_eq_of_toNat (by rw [h]; rfl)))
        · exact Or.inl (char_eq_of_toNat (by rw [h]; rfl))
        · exact Or.inr (Or.inr (char_eq_of_toNat (by rw [h]; rfl)))
  · simp only [CleanText]
    exact List.Chain'.infix
      ((squeezeNl_chain_head _ 0 (chain'_joinNl _ hlines)).1)
      (goTrimSpace_inf _)
  · intro c hc
    simp only [CleanText] at hc
    exact goTrimSpace_head hc
  · intro c hc
    simp only [CleanText] at hc
    exact goTrimSpace_getLast hc
  · simp only [CleanText]
    exact hasTripleNl_of_inf (goTrimSpace_inf _)
      (squeezeNl_lead_triple _ 0).2

/-- **C8 witness.** Concrete run: the newline in the cleaned output of
`"a\n\nb"` is accepted by the amended control-character clause. -/
theorem c8_cleanText_amended_witness :
    ('\n' ∈ CleanText "a\n\nb".toList) ∧
    ('\n'.toNat < 32 ∨ '\n'.toNat = 127) ∧
    ('\n' = '\n' ∨ '\n' = '\t' ∨ '\n' = '\r') :=
  ⟨by decide, by decide,
    (c8_cleanText_amended "a\n\nb".toList).1 '\n' (by decide) (by decide)⟩

/-! ## Vector store (claims C1, C4, C5, C10)

Embedding of `internal/vectorstore/store.go`.  Float values are modelled by
`ℚ` (with `Rat.sqrt` standing in for the machine square root — the
properties proved are insensitive to the numeric value of the norm), float
bit patterns by `Nat` below `2^64`, the SQLite `chunks` table by a list of
rows whose `INSERT` fails exactly on a duplicate primary key or a missing
`documents` foreign key, and the goroutine fan-out by processing worker
slices in worker order (the claims proved are invariant under completion
order).  The `container/heap` bounded min-heap is modelled by a
score-ascending sorted list: `Len`, the root (minimum), `Push`, and
"replace root and `Fix`" coincide with the heap up to the order of equal
scores, which none of the claims depend on. -/

/-- An embedding vector (float values modelled as exact rationals). -/
abbrev Vec := List ℚ

/-- `vectorNormF32` — the L2 norm; `Rat.sqrt` models the machine `Sqrt`
(over `ℚ` the 8-way unrolling of the source is plain summation). -/
def vectorNorm (v : Vec) : ℚ :=
  Rat.sqrt ((v.map (fun x => x * x)).sum)

/-- `dotProductF32x8` — over exact rationals the 8-way unrolled dot product
equals the plain dot product (unrolling only reassociates additions).
As in the source, the iteration is bounded by the length of the first
argument (`zip` truncates at the shorter list). -/
def dotProduct (a b : Vec) : ℚ :=
  ((a.zip b).map (fun p => p.1 * p.2)).sum

/-- `charBigrams` — the set of adjacent character pairs (the Go
`map[string]bool` of two-rune strings is modelled as a deduplicated list). -/
def charBigrams (l : List Char) : List (Char × Char) :=
  (l.zip l.tail).dedup

/-- `chunkMeta` — per-chunk metadata held in memory (no vector). -/
structure ChunkMeta where
  chunkText : String
  chunkIndex : Int
  documentID : String
  documentName : String
  norm : ℚ
  imageURL : String
  productID : String
  textLower : List Char
  bigrams : List (Char × Char)
  deriving DecidableEq

/-- `VectorChunk` — a chunk with its embedding, as passed to `Store`. -/
structure VectorChunk where
  ChunkText : String
  ChunkIndex : Int
  DocumentID : String
  DocumentName : String
  Vector : Vec
  ImageURL : String
  ProductID : String
  deriving DecidableEq

/-- One row of the `chunks` table. -/
structure ChunkRow where
  id : String
  documentID : String
  documentName : String
  chunkIndex : Int
  chunkText : String
  vector : Vec
  imageURL : String
  productID : String
  deriving DecidableEq

/-- `SearchResult` — a search hit with its similarity score. -/
structure SearchResult where
  ChunkText : String
  ChunkIndex : Int
  DocumentID : String
  DocumentName : String
  Score : ℚ
  ImageURL : String
  ProductID : String
  deriving DecidableEq

/-- A query-cache entry (`queryCacheEntry`). -/
structure CacheEntry where
  results : List SearchResult
  timestamp : Nat
  deriving DecidableEq

/-- The LRU query cache (`queryCache`); the entries map is an association
list, `order` is the LRU order (newest at the end). -/
structure QueryCache where
  entries : List (Nat × CacheEntry)
  order : List Nat
  maxSize : Nat
  ttl : Nat
  deriving DecidableEq

/-- Delete a key from the entries map. -/
def assocErase (l : List (Nat × CacheEntry)) (k : Nat) :
    List (Nat × CacheEntry) :=
  l.filter (fun p => p.1 ≠ k)

/-- Map assignment `entries[key] = v` (replace if present, else append). -/
def assocInsert (l : List (Nat × CacheEntry)) (k : Nat) (v : CacheEntry) :
    List (Nat × CacheEntry) :=
  if (l.map (fun p => p.1)).contains k then
    l.map (fun p => if p.1 = k then (k, v) else p)
  else l ++ [(k, v)]

/-- `queryCache.get`: miss on absent key; a key older than the TTL is
deleted and reported as a miss. -/
def cacheGet (qc : QueryCache) (now k : Nat) :
    Option (List SearchResult) × QueryCache :=
  match List.lookup k qc.entries with
  | none => (none, qc)
  | some e =>
    if qc.ttl < now - e.timestamp then
      (none, {qc with entries := assocErase qc.entries k})
    else (some e.results, qc)

/-- `queryCache.put`: on a new key evict the LRU-oldest entry when full and
append the key to the order; always write the entry with the current time. -/
def cachePut (qc : QueryCache) (now k : Nat) (results : List SearchResult) :
    QueryCache :=
  if (List.lookup k qc.entries).isSome then
    {qc with entries := assocInsert qc.entries k ⟨results, now⟩}
  else
    match qc.order with
    | [] =>
      {qc with entries := assocInsert qc.entries k ⟨results, now⟩,
               order := [k]}
    | oldest :: rest =>
      if qc.maxSize ≤ qc.order.length then
        {qc with entries := assocInsert (assocErase qc.entries oldest) k
                   ⟨results, now⟩,
                 order := rest ++ [k]}
      else
        {qc with entries := assocInsert qc.entries k ⟨results, now⟩,
                 order := qc.order ++ [k]}

/-- `queryCache.invalidate`. -/
def cacheInvalidate (qc : QueryCache) : QueryCache :=
  {qc with entries := [], order := []}

/-- `SQLiteVectorStore` — the durable table plus the in-memory arena,
product partition index, loaded flag and query cache.  `documents` is the
set of ids present in the `documents` table (the FK target). -/
structure SQLiteVectorStore where
  documents : List String
  rows : List ChunkRow
  loaded : Bool
  meta : List ChunkMeta
  arenaData : List ℚ
  arenaDim : Nat
  productIndex : List (String × List Nat)
  searchCache : QueryCache
  deriving DecidableEq

/-- Read of the product-index map (a missing key is the empty slice). -/
def pidxLookup (p : List (String × List Nat)) (k : String) : List Nat :=
  match List.lookup k p with
  | some l => l
  | none => []

/-- `productIndex[k] = append(productIndex[k], idx)`. -/
def pidxAppend (p : List (String × List Nat)) (k : String) (idx : Nat) :
    List (String × List Nat) :=
  if (p.map (fun q => q.1)).contains k then
    p.map (fun q => if q.1 = k then (q.1, q.2 ++ [idx]) else q)
  else p ++ [(k, [idx])]

/-- The per-row metadata built by `loadCache`. -/
def metaOfRow (r : ChunkRow) : ChunkMeta :=
  { chunkText := r.chunkText, chunkIndex := r.chunkIndex,
    documentID := r.documentID, documentName := r.documentName,
    norm := vectorNorm r.vector, imageURL := r.imageURL,
    productID := r.productID,
    textLower := r.chunkText.toList.map Char.toLower,
    bigrams := charBigrams (r.chunkText.toList.map Char.toLower) }

/-- The dimension detected by `loadCache` (first row with a non-empty
vector). -/
def dimOfRows : List ChunkRow → Nat
  | [] => 0
  | r :: rest => if r.vector.length ≠ 0 then r.vector.length else dimOfRows rest

/-- The product index built row by row by `loadCache`. -/
def pidxOfRows (rows : List ChunkRow) : List (String × List Nat) :=
  (rows.enum.foldl (fun p ir => pidxAppend p ir.2.productID ir.1) [])

/-- `loadCache`: rebuild meta, arena and product index from the table. -/
def loadCache (s : SQLiteVectorStore) : SQLiteVectorStore :=
  if s.rows.length = 0 then
    {s with meta := [], arenaData := [], arenaDim := 0, productIndex := [],
            loaded := true}
  else
    {s with meta := s.rows.map metaOfRow,
            arenaData := (s.rows.map (fun r => r.vector)).flatten,
            arenaDim := dimOfRows s.rows,
            productIndex := pidxOfRows s.rows,
            loaded := true}

/-- `ensureCache`. -/
def ensureCache (s : SQLiteVectorStore) : SQLiteVectorStore :=
  if s.loaded then s else loadCache s

/-- `getRelevantIndices`: all chunks for the empty product id, otherwise the
product partition concatenated with the public partition. -/
def getRelevantIndices (s : SQLiteVectorStore) (productID : String) :
    List Nat :=
  if productID = "" then List.range s.meta.length
  else
    let productChunks := pidxLookup s.productIndex productID
    let publicChunks := pidxLookup s.productIndex ""
    if productChunks.length + publicChunks.length = 0 then []
    else productChunks ++ publicChunks

/-- An entry of the per-worker top-K heap (`scoredItem`). -/
structure ScoredItem where
  score : ℚ
  idx : Nat
  deriving DecidableEq

/-- Insertion into the score-ascending list that models the `topKHeap`
min-heap (equal scores keep the earlier item nearer the root). -/
def heapPush : List ScoredItem → ScoredItem → List ScoredItem
  | [], it => [it]
  | x :: xs, it =>
    if it.score < x.score then it :: x :: xs else x :: heapPush xs it

/-- One top-K update of the search loop: push while `Len() < topK`,
otherwise replace the root (the minimum) and re-establish the heap when the
new score is strictly greater than the root's. -/
def heapStep (topK : Nat) (h : List ScoredItem) (it : ScoredItem) :
    List ScoredItem :=
  if h.length < topK then heapPush h it
  else
    match h with
    | [] => []
    | root :: rest =>
      if root.score < it.score then heapPush rest it else root :: rest

/-- `minWorkersThreshold`. -/
def minWorkersThreshold : Nat := 500

/-- `adaptiveWorkers` (`cpus` models `runtime.NumCPU()`). -/
def adaptiveWorkers (cpus n : Nat) : Nat :=
  if n < minWorkersThreshold then 1
  else
    let w := n / minWorkersThreshold
    let w := if cpus < w then cpus else w
    if w < 1 then 1 else w

/-- The candidate loop of one search worker: skip zero-norm chunks and
out-of-range arena spans, compute `dot/(‖q‖·norm)` on the chunk's contiguous
arena span, and feed scores `≥ threshold` to the bounded heap.  (An index
whose metadata is missing is skipped; in the source it would be an
out-of-bounds panic and the claims quantify over well-formed states.) -/
def scanStep (meta : List ChunkMeta) (arenaData : List ℚ) (dim : Nat)
    (q : Vec) (qNorm threshold : ℚ) (topK : Nat)
    (h : List ScoredItem) (idx : Nat) : List ScoredItem :=
  match meta[idx]? with
  | none => h
  | some m =>
    if m.norm = 0 then h
    else if idx * dim + dim ≤ arenaData.length then
      let vec := (arenaData.drop (idx * dim)).take dim
      let score := dotProduct q vec / (qNorm * m.norm)
      if threshold ≤ score then heapStep topK h ⟨score, idx⟩ else h
    else h

def workerScan (meta : List ChunkMeta) (arenaData : List ℚ) (dim : Nat)
    (q : Vec) (qNorm threshold : ℚ) (topK : Nat) (idxs : List Nat) :
    List ScoredItem :=
  idxs.foldl (scanStep meta arenaData dim q qNorm threshold topK) []

/-- Build one `SearchResult` from a heap entry (the metadata lookup cannot
fail for indices produced by `workerScan`). -/
def itemToResult (meta : List ChunkMeta) (it : ScoredItem) : SearchResult :=
  match meta[it.idx]? with
  | some m => ⟨m.chunkText, m.chunkIndex, m.documentID, m.documentName,
               it.score, m.imageURL, m.productID⟩
  | none => ⟨"", 0, "", "", it.score, "", ""⟩

/-- The fan-out / merge / extraction of `Search` after the early returns:
partition the candidate indices into worker slices, run the per-worker
bounded heaps, merge them into one size-`topK` heap with the same update
step, then pop ascending and fill the result array from the back (so the
returned list is sorted by score descending). -/
def searchBody (meta : List ChunkMeta) (arenaData : List ℚ) (dim : Nat)
    (cpus : Nat) (q : Vec) (qNorm threshold : ℚ) (topK : Nat)
    (indices : List Nat) : List SearchResult :=
  let numWorkers := adaptiveWorkers cpus indices.length
  let chunkSz := (indices.length + numWorkers - 1) / numWorkers
  let heaps := (List.range numWorkers).map (fun w =>
    workerScan meta arenaData dim q qNorm threshold topK
      ((indices.drop (w * chunkSz)).take chunkSz))
  let merged := heaps.foldl (fun acc h => h.foldl (heapStep topK) acc) []
  (merged.map (itemToResult meta)).reverse

/-- FNV-1a offset basis. -/
def fnvOffset : Nat := 14695981039346656037

/-- FNV-1a prime. -/
def fnvPrime : Nat := 1099511628211

/-- Truncation to 64 bits (Go `uint64` arithmetic). -/
def u64 (x : Nat) : Nat := x % 2 ^ 64

/-- One FNV-1a step: `h ^= x; h *= prime` in `uint64`. -/
def fnvStep (h x : Nat) : Nat := u64 ((h ^^^ x) * fnvPrime)

/-- `hashQueryVector`: FNV-1a over the bit patterns of the first eight
query floats (each folded in as the 32-bit pattern and its top half), then
`topK`, then the 64-bit pattern of `threshold`, then the bytes of
`productID`. -/
def hashQueryVector (qvBits : List Nat) (topK : Nat) (thresholdBits : Nat)
    (productIDBytes : List Nat) : Nat :=
  let h := fnvOffset
  let h := (qvBits.take 8).foldl
    (fun h bits => fnvStep (fnvStep h bits) (bits >>> 16)) h
  let h := fnvStep h (u64 topK)
  let h := fnvStep h thresholdBits
  productIDBytes.foldl (fun h b => fnvStep h b) h

/-- UTF-8 encoding of one character (Go strings are byte sequences; the
hash iterates the bytes of `productID`). -/
def utf8Bytes (c : Char) : List Nat :=
  let n := c.toNat
  if n < 0x80 then [n]
  else if n < 0x800 then
    [0xC0 + n / 64, 0x80 + n % 64]
  else if n < 0x10000 then
    [0xE0 + n / 4096, 0x80 + n / 64 % 64, 0x80 + n % 64]
  else
    [0xF0 + n / 262144, 0x80 + n / 4096 % 64, 0x80 + n / 64 % 64,
     0x80 + n % 64]

/-- The UTF-8 bytes of a string (for the `productID` part of the hash). -/
def strBytes (s : String) : List Nat :=
  (s.toList.map utf8Bytes).flatten

/-- `Search`: hash the parameters to the cache key and return a fresh hit;
on a miss load the arena if needed, apply the early returns (empty
meta/candidates/dimension, zero query norm — these do not populate the
cache), otherwise run the fan-out and store the result list in the cache.
`f32bits`/`f64bits` model `math.Float32bits`/`math.Float64bits` on the
model's rational float values; `now` models the clock. -/
def SQLiteVectorStore.Search (f32bits f64bits : ℚ → Nat) (cpus now : Nat)
    (s : SQLiteVectorStore) (queryVector : Vec) (topK : Nat)
    (threshold : ℚ) (productID : String) :
    List SearchResult × SQLiteVectorStore :=
  let key := hashQueryVector (queryVector.map f32bits) topK
    (f64bits threshold) (strBytes productID)
  let g := cacheGet s.searchCache now key
  match g.1 with
  | some cached => (cached, {s with searchCache := g.2})
  | none =>
    let s1 := ensureCache {s with searchCache := g.2}
    let indices := getRelevantIndices s1 productID
    if s1.meta.length = 0 ∨ indices.length = 0 ∨ s1.arenaDim = 0 then
      ([], s1)
    else
      let qNorm := vectorNorm queryVector
      if qNorm = 0 then ([], s1)
      else
        let results := searchBody s1.meta s1.arenaData s1.arenaDim cpus
          queryVector qNorm threshold topK indices
        (results, {s1 with searchCache := cachePut s1.searchCache now key results})

/-- Delimiters of `extractKeywords` (`strings.FieldsFunc` split set). -/
def isKeywordDelim (c : Char) : Bool :=
  c == ' ' || c == '\t' || c == '\n' || c == ',' || c == '.' ||
    c == '?' || c == '!' || c == '。' || c == '，' ||
    c == '？' || c == '！' || c == '、' || c == '：' ||
    c == '；' || c == '“' || c == '”' || c == '（' ||
    c == '）' || c == '(' || c == ')' || c == '[' || c == ']' ||
    c == '\x7b' || c == '\x7d'

/-- Split on a delimiter predicate (keeping empty fields). -/
def splitOnPred (p : Char → Bool) : List Char → List (List Char)
  | [] => [[]]
  | c :: rest =>
    if p c then [] :: splitOnPred p rest
    else
      match splitOnPred p rest with
      | [] => [[c]]
      | h :: t => (c :: h) :: t

/-- `strings.FieldsFunc` (only non-empty fields). -/
def fieldsFunc (p : Char → Bool) (l : List Char) : List (List Char) :=
  (splitOnPred p l).filter (fun f => !(f.isEmpty))

/-- `extractKeywords`: tokens of at least two runes, lowercased, deduped. -/
def extractKeywords (l : List Char) : List (List Char) :=
  (((fieldsFunc isKeywordDelim l).filter (fun f => 2 ≤ f.length)).map
    (fun f => f.map Char.toLower)).dedup

/-- `strings.Contains` on rune lists. -/
def containsSub (text pat : List Char) : Bool :=
  (List.range (text.length + 1)).any (fun i => pat.isPrefixOf (text.drop i))

/-- `keywordOverlap`: fraction of query keywords found in the chunk text. -/
def keywordOverlap (kws : List (List Char)) (chunkLower : List Char) : ℚ :=
  if kws.isEmpty then 0
  else ((kws.filter (fun kw => containsSub chunkLower kw)).length : ℚ) /
    (kws.length : ℚ)

/-- `jaccardBigrams` (the size-swap of the source does not change the
value). -/
def jaccardBigrams (a b : List (Char × Char)) : ℚ :=
  if a.isEmpty || b.isEmpty then 0
  else
    let inter := (a.filter (fun x => b.contains x)).length
    let union := a.length + b.length - inter
    if union = 0 then 0 else (inter : ℚ) / (union : ℚ)

/-- Insertion into a score-descending list (models the final
`sort.Slice(hits, score >)` of `TextSearch`). -/
def insertDesc (it : ScoredItem) : List ScoredItem → List ScoredItem
  | [] => [it]
  | x :: xs => if x.score < it.score then it :: x :: xs else x :: insertDesc it xs

/-- Sort hits by score descending. -/
def sortByScoreDesc (l : List ScoredItem) : List ScoredItem :=
  l.foldr insertDesc []

/-- `TextSearch`: score every candidate chunk by
`0.6·keyword_overlap + 0.4·bigram_jaccard` over the precomputed lowercased
text and bigram sets, keep scores `≥ threshold`, sort descending, truncate
to `topK`.  The worker partition concatenates per-slice hits in worker
order, which equals a single pass in index order. -/
def SQLiteVectorStore.TextSearch (s : SQLiteVectorStore) (query : String)
    (topK : Nat) (threshold : ℚ) (productID : String) :
    List SearchResult × SQLiteVectorStore :=
  let s1 := ensureCache s
  let indices := getRelevantIndices s1 productID
  if s1.meta.length = 0 ∨ indices.length = 0 then ([], s1)
  else
    let queryLower := query.toList.map Char.toLower
    let qBigrams := charBigrams queryLower
    let qKeywords := extractKeywords queryLower
    let hits := indices.filterMap (fun idx =>
      match s1.meta[idx]? with
      | none => none
      | some m =>
        let score := keywordOverlap qKeywords m.textLower * (6 / 10) +
          jaccardBigrams qBigrams m.bigrams * (4 / 10)
        if threshold ≤ score then some (⟨score, idx⟩ : ScoredItem) else none)
    let top := (sortByScoreDesc hits).take topK
    (top.map (itemToResult s1.meta), s1)

/-- The metadata entry `Store` builds for one incoming chunk (note: its
`documentID` comes from the chunk, while the inserted row's comes from the
`docID` argument, exactly as in the source). -/
def metaOfChunk (c : VectorChunk) : ChunkMeta :=
  { chunkText := c.ChunkText, chunkIndex := c.ChunkIndex,
    documentID := c.DocumentID, documentName := c.DocumentName,
    norm := vectorNorm c.Vector, imageURL := c.ImageURL,
    productID := c.ProductID,
    textLower := c.ChunkText.toList.map Char.toLower,
    bigrams := charBigrams (c.ChunkText.toList.map Char.toLower) }

/-- The row `Store` inserts for one chunk:
`id = "{docID}-{chunk_index}"`. -/
def rowOfChunk (docID : String) (c : VectorChunk) : ChunkRow :=
  { id := docID ++ "-" ++ toString c.ChunkIndex, documentID := docID,
    documentName := c.DocumentName, chunkIndex := c.ChunkIndex,
    chunkText := c.ChunkText, vector := c.Vector, imageURL := c.ImageURL,
    productID := c.ProductID }

/-- One `INSERT INTO chunks` inside the transaction: fails on a duplicate
primary key or a missing `documents` foreign key. -/
def insertRow (documents : List String) (table : List ChunkRow)
    (r : ChunkRow) : Option (List ChunkRow) :=
  if (table.map (fun x => x.id)).contains r.id then none
  else if !(documents.contains r.documentID) then none
  else some (table ++ [r])

/-- The insert loop of the transaction. -/
def txInsertAll (documents : List String) :
    List ChunkRow → List VectorChunk → String → Option (List ChunkRow)
  | table, [], _ => some table
  | table, c :: cs, docID =>
    match insertRow documents table (rowOfChunk docID c) with
    | none => none
    | some t' => txInsertAll documents t' cs docID

/-- `Store`: insert all rows in one transaction; on any failure roll back
(returning the unchanged state and `false`); on success commit, append the
new vectors to the arena (or load the arena when unloaded) and invalidate
the query cache. -/
def SQLiteVectorStore.Store (s : SQLiteVectorStore) (docID : String)
    (chunks : List VectorChunk) : SQLiteVectorStore × Bool :=
  match txInsertAll s.documents s.rows chunks docID with
  | none => (s, false)
  | some rows' =>
    let s1 := {s with rows := rows'}
    let s2 :=
      if s1.loaded then
        chunks.foldl (fun st c =>
          let idx := st.meta.length
          { st with
            meta := st.meta ++ [metaOfChunk c],
            arenaDim := if st.arenaDim = 0 ∧ c.Vector.length ≠ 0 then
              c.Vector.length else st.arenaDim,
            arenaData := st.arenaData ++ c.Vector,
            productIndex := pidxAppend st.productIndex c.ProductID idx }) s1
      else loadCache s1
    ({s2 with searchCache := cacheInvalidate s2.searchCache}, true)

/-- One iteration of the compaction loop of `DeleteByDocID`: keep a
surviving chunk's metadata, copy its vector span from the old arena into
the new buffer, and append its new index to the rebuilt product index. -/
def delStep (docID : String) (dim : Nat) (arena : List ℚ)
    (acc : List ChunkMeta × List ℚ × List (String × List Nat))
    (im : Nat × ChunkMeta) :
    List ChunkMeta × List ℚ × List (String × List Nat) :=
  if im.2.documentID ≠ docID then
    let idx := acc.1.length
    (acc.1 ++ [im.2],
     (if 0 < dim then
        (if im.1 * dim + dim ≤ arena.length then
          acc.2.1 ++ (arena.drop (im.1 * dim)).take dim
         else acc.2.1)
      else acc.2.1),
     pidxAppend acc.2.2 im.2.productID idx)
  else acc

/-- `DeleteByDocID`: delete the document's rows, then compact meta, arena
and product index by copying every surviving row's vector span into a new
contiguous buffer, and invalidate the query cache. -/
def SQLiteVectorStore.DeleteByDocID (s : SQLiteVectorStore)
    (docID : String) : SQLiteVectorStore :=
  let rows' := s.rows.filter (fun r => r.documentID ≠ docID)
  let s1 := {s with rows := rows'}
  let s2 :=
    if s1.loaded then
      let st := s1.meta.enum.foldl (delStep docID s1.arenaDim s1.arenaData)
        ([], [], [])
      {s1 with meta := st.1, arenaData := st.2.1, productIndex := st.2.2}
    else s1
  {s2 with searchCache := cacheInvalidate s2.searchCache}

/-- The score-ascending ordering of the heap model. -/
def heapLe (a b : ScoredItem) : Prop := a.score ≤ b.score

theorem heapPush_length : ∀ (h : List ScoredItem) (it : ScoredItem),
    (heapPush h it).length = h.length + 1 := by
  intro h it
  induction h with
  | nil => rfl
  | cons x xs ih =>
      unfold heapPush
      split
      · simp
      · simp [ih]

theorem heapPush_mem : ∀ (h : List ScoredItem) (it x : ScoredItem),
    x ∈ heapPush h it → x = it ∨ x ∈ h := by
  intro h it x
  induction h with
  | nil => intro hx; simp [heapPush] at hx; exact Or.inl hx
  | cons y ys ih =>
      intro hx
      unfold heapPush at hx
      split at hx
      · rcases List.mem_cons.mp hx with h' | h'
        · exact Or.inl h'
        · exact Or.inr h'
      · rcases List.mem_cons.mp hx with h' | h'
        · exact Or.inr (h' ▸ List.mem_cons_self y ys)
        · rcases ih h' with h'' | h''
          · exact Or.inl h''
          · exact Or.inr (List.mem_cons_of_mem y h'')

theorem heapPush_head? : ∀ (h : List ScoredItem) (it c : ScoredItem),
    (heapPush h it).head? = some c → c = it ∨ h.head? = some c := by
  intro h it c
  cases h with
  | nil => intro hc; simp [heapPush] at hc; exact Or.inl hc.symm
  | cons y ys =>
      intro hc
      unfold heapPush at hc
      split at hc
      · simp only [List.head?_cons, Option.some.injEq] at hc
        exact Or.inl hc.symm
      · simp only [List.head?_cons, Option.some.injEq] at hc
        exact Or.inr (by rw [List.head?_cons, hc])

theorem heapPush_sorted : ∀ (h : List ScoredItem) (it : ScoredItem),
    List.Chain' heapLe h → List.Chain' heapLe (heapPush h it) := by
  intro h it
  induction h with
  | nil => intro _; simp [heapPush]
  | cons y ys ih =>
      intro hs
      rw [List.chain'_cons'] at hs
      unfold heapPush
      split
      · rw [List.chain'_cons']
        refine ⟨?_, List.chain'_cons'.mpr hs⟩
        intro z hz
        simp only [List.head?_cons, Option.mem_def, Option.some.injEq] at hz
        subst hz
        exact le_of_lt (by assumption)
      · rw [List.chain'_cons']
        refine ⟨?_, ih hs.2⟩
        intro z hz
        rcases heapPush_head? ys it z hz with h' | h'
        · subst h'
          exact le_of_not_lt (by assumption)
        · exact hs.1 z h'

theorem heapStep_length {topK : Nat} {h : List ScoredItem}
    (hlen : h.length ≤ topK) (it : ScoredItem) :
    (heapStep topK h it).length ≤ topK := by
  unfold heapStep
  split
  · rw [heapPush_length]; omega
  · match h, hlen with
    | [], _ => simp
    | root :: rest, hlen =>
        simp only
        split
        · rw [heapPush_length]
          simpa using hlen
        · simpa using hlen

theorem heapStep_mem {topK : Nat} {h : List ScoredItem} {it x : ScoredItem}
    (hx : x ∈ heapStep topK h it) : x = it ∨ x ∈ h := by
  unfold heapStep at hx
  split at hx
  · exact heapPush_mem h it x hx
  · match h, hx with
    | [], hx => simp at hx
    | root :: rest, hx =>
        simp only at hx
        split at hx
        · rcases heapPush_mem rest it x hx with h' | h'
          · exact Or.inl h'
          · exact Or.inr (List.mem_cons_of_mem root h')
        · exact Or.inr hx

theorem heapStep_sorted {topK : Nat} {h : List ScoredItem}
    (hs : List.Chain' heapLe h) (it : ScoredItem) :
    List.Chain' heapLe (heapStep topK h it) := by
  unfold heapStep
  split
  · exact heapPush_sorted h it hs
  · match h, hs with
    | [], _ => simp
    | root :: rest, hs =>
        simp only
        split
        · exact heapPush_sorted rest it (List.chain'_cons'.mp hs).2
        · exact hs

/-- Invariant of every heap entry during a search: the score met the
threshold and the index resolves in the metadata table. -/
def itemOk (meta : List ChunkMeta) (threshold : ℚ) (it : ScoredItem) : Prop :=
  threshold ≤ it.score ∧ ∃ m, meta[it.idx]? = some m

theorem scanStep_spec (meta : List ChunkMeta) (arenaData : List ℚ)
    (dim : Nat) (q : Vec) (qNorm threshold : ℚ) (topK : Nat)
    (h : List ScoredItem) (idx : Nat)
    (h1 : List.Chain' heapLe h) (h2 : h.length ≤ topK)
    (h3 : ∀ x ∈ h, itemOk meta threshold x) :
    List.Chain' heapLe (scanStep meta arenaData dim q qNorm threshold topK h idx) ∧
    (scanStep meta arenaData dim q qNorm threshold topK h idx).length ≤ topK ∧
    (∀ x ∈ scanStep meta arenaData dim q qNorm threshold topK h idx,
      itemOk meta threshold x) := by
  unfold scanStep
  rcases hm : meta[idx]? with _ | m
  · exact ⟨h1, h2, h3⟩
  · simp only
    by_cases hn : m.norm = 0
    · rw [if_pos hn]; exact ⟨h1, h2, h3⟩
    · rw [if_neg hn]
      split
      · split
        · refine ⟨heapStep_sorted h1 _, heapStep_length h2 _, ?_⟩
          intro x hx
          rcases heapStep_mem hx with h' | h'
          · subst h'
            exact ⟨by assumption, m, hm⟩
          · exact h3 x h'
        · exact ⟨h1, h2, h3⟩
      · exact ⟨h1, h2, h3⟩

theorem scanFold_spec (meta : List ChunkMeta) (arenaData : List ℚ)
    (dim : Nat) (q : Vec) (qNorm threshold : ℚ) (topK : Nat) :
    ∀ (idxs : List Nat) (acc : List ScoredItem),
    List.Chain' heapLe acc → acc.length ≤ topK →
    (∀ x ∈ acc, itemOk meta threshold x) →
    List.Chain' heapLe
      (idxs.foldl (scanStep meta arenaData dim q qNorm threshold topK) acc) ∧
    (idxs.foldl (scanStep meta arenaData dim q qNorm threshold topK) acc).length ≤ topK ∧
    (∀ x ∈ idxs.foldl (scanStep meta arenaData dim q qNorm threshold topK) acc,
      itemOk meta threshold x) := by
  intro idxs
  induction idxs with
  | nil => intro acc h1 h2 h3; exact ⟨h1, h2, h3⟩
  | cons i rest ih =>
      intro acc h1 h2 h3
      rw [List.foldl_cons]
      have hstep := scanStep_spec meta arenaData dim q qNorm threshold topK
        acc i h1 h2 h3
      exact ih _ hstep.1 hstep.2.1 hstep.2.2

theorem workerScan_spec (meta : List ChunkMeta) (arenaData : List ℚ)
    (dim : Nat) (q : Vec) (qNorm threshold : ℚ) (topK : Nat)
    (idxs : List Nat) :
    List.Chain' heapLe (workerScan meta arenaData dim q qNorm threshold topK idxs) ∧
    (workerScan meta arenaData dim q qNorm threshold topK idxs).length ≤ topK ∧
    (∀ x ∈ workerScan meta arenaData dim q qNorm threshold topK idxs,
      itemOk meta threshold x) := by
  unfold workerScan
  exact scanFold_spec meta arenaData dim q qNorm threshold topK idxs []
    List.chain'_nil (by simp) (by simp)

theorem mergeFold_spec (topK : Nat) (P : ScoredItem → Prop) :
    ∀ (l acc : List ScoredItem),
    List.Chain' heapLe acc → acc.length ≤ topK → (∀ x ∈ acc, P x) →
    (∀ x ∈ l, P x) →
    List.Chain' heapLe (l.foldl (heapStep topK) acc) ∧
    (l.foldl (heapStep topK) acc).length ≤ topK ∧
    (∀ x ∈ l.foldl (heapStep topK) acc, P x) := by
  intro l
  induction l with
  | nil => intro acc h1 h2 h3 _; exact ⟨h1, h2, h3⟩
  | cons it rest ih =>
      intro acc h1 h2 h3 hl
      rw [List.foldl_cons]
      refine ih _ (heapStep_sorted h1 it) (heapStep_length h2 it) ?_
        (fun x hx => hl x (List.mem_cons_of_mem it hx))
      intro x hx
      rcases heapStep_mem hx with h' | h'
      · exact h' ▸ hl it (List.mem_cons_self it rest)
      · exact h3 x h'

theorem itemToResult_score (meta : List ChunkMeta) (it : ScoredItem) :
    (itemToResult meta it).Score = it.score := by
  unfold itemToResult
  rcases meta[it.idx]? <;> rfl

theorem searchBody_spec (meta : List ChunkMeta) (arenaData : List ℚ)
    (dim cpus : Nat) (q : Vec) (qNorm threshold : ℚ) (topK : Nat)
    (indices : List Nat) :
    List.Chain' (fun a b : SearchResult => b.Score ≤ a.Score)
      (searchBody meta arenaData dim cpus q qNorm threshold topK indices) ∧
    (searchBody meta arenaData dim cpus q qNorm threshold topK indices).length ≤ topK ∧
    (∀ x ∈ searchBody meta arenaData dim cpus q qNorm threshold topK indices,
      threshold ≤ x.Score) ∧
    (∀ x ∈ searchBody meta arenaData dim cpus q qNorm threshold topK indices,
      ∃ m ∈ meta, x.DocumentID = m.documentID) := by
  unfold searchBody
  have hmerged : ∀ heaps : List (List ScoredItem),
      (∀ h ∈ heaps, ∀ x ∈ h, itemOk meta threshold x) →
      List.Chain' heapLe
        (heaps.foldl (fun acc h => h.foldl (heapStep topK) acc) []) ∧
      (heaps.foldl (fun acc h => h.foldl (heapStep topK) acc) []).length ≤ topK ∧
      (∀ x ∈ heaps.foldl (fun acc h => h.foldl (heapStep topK) acc) [],
        itemOk meta threshold x) := by
    intro heaps
    have : ∀ (hs : List (List ScoredItem)) (acc : List ScoredItem),
        List.Chain' heapLe acc → acc.length ≤ topK →
        (∀ x ∈ acc, itemOk meta threshold x) →
        (∀ h ∈ hs, ∀ x ∈ h, itemOk meta threshold x) →
        List.Chain' heapLe
          (hs.foldl (fun acc h => h.foldl (heapStep topK) acc) acc) ∧
        (hs.foldl (fun acc h => h.foldl (heapStep topK) acc) acc).length ≤ topK ∧
        (∀ x ∈ hs.foldl (fun acc h => h.foldl (heapStep topK) acc) acc,
          itemOk meta threshold x) := by
      intro hs
      induction hs with
      | nil => intro acc h1 h2 h3 _; exact ⟨h1, h2, h3⟩
      | cons h0 rest ih =>
          intro acc h1 h2 h3 hh
          rw [List.foldl_cons]
          have hm := mergeFold_spec topK (itemOk meta threshold) h0 acc h1 h2 h3
            (hh h0 (List.mem_cons_self h0 rest))
          exact ih _ hm.1 hm.2.1 hm.2.2
            (fun h' hmem => hh h' (List.mem_cons_of_mem h0 hmem))
    intro hh
    exact this heaps [] List.chain'_nil (by simp) (by simp) hh
  have hworkers : ∀ h ∈ (List.range (adaptiveWorkers cpus indices.length)).map
      (fun w => workerScan meta arenaData dim q qNorm threshold topK
        ((indices.drop (w * ((indices.length + adaptiveWorkers cpus indices.length - 1) /
          adaptiveWorkers cpus indices.length))).take
          ((indices.length + adaptiveWorkers cpus indices.length - 1) /
          adaptiveWorkers cpus indices.length))),
      ∀ x ∈ h, itemOk meta threshold x := by
    intro h hh
    rcases List.mem_map.mp hh with ⟨w, _, rfl⟩
    exact (workerScan_spec meta arenaData dim q qNorm threshold topK _).2.2
  have hm := hmerged _ hworkers
  refine ⟨?_, ?_, ?_, ?_⟩
  · rw [List.chain'_reverse]
    have hflip : (flip fun a b : SearchResult => b.Score ≤ a.Score) =
        fun a b : SearchResult => a.Score ≤ b.Score := rfl
    rw [hflip, List.chain'_map]
    refine hm.1.imp ?_
    intro a b hab
    rw [itemToResult_score, itemToResult_score]
    exact hab
  · simp only [List.length_reverse, List.length_map]
    exact hm.2.1
  · intro x hx
    rw [List.mem_reverse] at hx
    rcases List.mem_map.mp hx with ⟨it, hit, rfl⟩
    rw [itemToResult_score]
    exact (hm.2.2 it hit).1
  · intro x hx
    rw [List.mem_reverse] at hx
    rcases List.mem_map.mp hx with ⟨it, hit, rfl⟩
    rcases (hm.2.2 it hit).2 with ⟨m, hmeta⟩
    unfold itemToResult
    rw [hmeta]
    exact ⟨m, List.getElem?_mem hmeta, rfl⟩

/-- **C1.** For every loaded store state whose query cache has been
invalidated (the state every write leaves behind), every query vector of the
arena's dimension, `top_k > 0`, threshold and product id, the result list of
`Search` is sorted by score descending, has at most `top_k` entries, and
every returned score is at least the threshold. -/
theorem c1_search_monotone (f32bits f64bits : ℚ → Nat) (cpus now : Nat)
    (s : SQLiteVectorStore) (queryVector : Vec) (topK : Nat)
    (threshold : ℚ) (productID : String)
    (hloaded : s.loaded = true) (hcache : s.searchCache.entries = [])
    (hk : 0 < topK) (hcpus : 0 < cpus)
    (hdim : queryVector.length = s.arenaDim) :
    List.Chain' (fun a b : SearchResult => b.Score ≤ a.Score)
      (s.Search f32bits f64bits cpus now queryVector topK threshold
        productID).1 ∧
    (s.Search f32bits f64bits cpus now queryVector topK threshold
      productID).1.length ≤ topK ∧
    (∀ x ∈ (s.Search f32bits f64bits cpus now queryVector topK threshold
      productID).1, threshold ≤ x.Score) := by
  have hget : ∀ k, cacheGet s.searchCache now k = (none, s.searchCache) := by
    intro k
    unfold cacheGet
    rw [hcache]
    rfl
  have hens : ensureCache {s with searchCache := s.searchCache} = s := by
    have heta : ({s with searchCache := s.searchCache} : SQLiteVectorStore) = s := rfl
    rw [heta]
    unfold ensureCache
    rw [hloaded]
    rfl
  simp only [SQLiteVectorStore.Search, hget, hens]
  split
  · exact ⟨List.chain'_nil, by simp, by simp⟩
  · split
    · exact ⟨List.chain'_nil, by simp, by simp⟩
    · have hspec := searchBody_spec s.meta s.arenaData s.arenaDim cpus
        queryVector (vectorNorm queryVector) threshold topK
        (getRelevantIndices s productID)
      exact ⟨hspec.1, hspec.2.1, hspec.2.2.1⟩

/-- A tiny loaded store used by the search witnesses: one chunk of
dimension 1, vector `[1]`, norm `1`, empty product id. -/
def c1WitnessStore : SQLiteVectorStore :=
  { documents := ["d"],
    rows := [⟨"d-0", "d", "n", 0, "t", [1], "", ""⟩],
    loaded := true,
    meta := [⟨"t", 0, "d", "n", 1, "", "", ['t'], []⟩],
    arenaData := [1], arenaDim := 1,
    productIndex := [("", [0])],
    searchCache := ⟨[], [], 256, 300⟩ }

/-- **C1 witness.** Concrete run of `Search` on `c1WitnessStore` with
query `[1]`, `top_k = 1`, threshold `0`: the hypotheses hold concretely and
the monotonicity conclusions follow. -/
theorem c1_search_monotone_witness :
    (c1WitnessStore.loaded = true ∧ c1WitnessStore.searchCache.entries = [] ∧
      0 < 1 ∧ ([(1 : ℚ)] : Vec).length = c1WitnessStore.arenaDim) ∧
    (List.Chain' (fun a b : SearchResult => b.Score ≤ a.Score)
      (c1WitnessStore.Search (fun _ => 0) (fun _ => 0) 1 0 [1] 1 0 "").1 ∧
    (c1WitnessStore.Search (fun _ => 0) (fun _ => 0) 1 0 [1] 1 0 "").1.length ≤ 1 ∧
    (∀ x ∈ (c1WitnessStore.Search (fun _ => 0) (fun _ => 0) 1 0 [1] 1 0 "").1,
      (0 : ℚ) ≤ x.Score)) :=
  ⟨⟨rfl, rfl, by decide, by decide⟩,
    c1_search_monotone (fun _ => 0) (fun _ => 0) 1 0 c1WitnessStore [1] 1 0 ""
      rfl rfl (by decide) (by decide) (by decide)⟩

theorem hashQueryVector_take8 {qv1 qv2 : List Nat}
    (h : qv1.take 8 = qv2.take 8) (topK tb : Nat) (pid : List Nat) :
    hashQueryVector qv1 topK tb pid = hashQueryVector qv2 topK tb pid := by
  unfold hashQueryVector
  rw [h]

theorem assocInsert_lookup (l : List (Nat × CacheEntry)) (k : Nat)
    (v : CacheEntry) : List.lookup k (assocInsert l k v) = some v := by
  unfold assocInsert
  split
  · rename_i hcont
    induction l with
    | nil => simp at hcont
    | cons p l' ih =>
        simp only [List.map_cons]
        by_cases hp : p.1 = k
        · rw [if_pos hp]
          simp [List.lookup]
        · rw [if_neg hp]
          have hk : (k == p.1) = false := by
            simp only [beq_eq_false_iff_ne, ne_eq]
            exact fun he => hp he.symm
          simp only [List.lookup, hk]
          apply ih
          simp only [List.map_cons, List.contains_cons] at hcont
          rcases Bool.or_eq_true_iff.mp hcont with h' | h'
          · exact absurd (eq_of_beq h').symm hp
          · exact h'
  · induction l with
    | nil => simp [List.lookup]
    | cons p l' ih =>
        rename_i hcont
        simp only [List.map_cons, List.contains_cons, Bool.or_eq_true_iff,
          not_or] at hcont
        have hk : (k == p.1) = false := by
          rcases hb : k == p.1
          · rfl
          · exact absurd hb hcont.1
        simp only [List.cons_append, List.lookup, hk]
        apply ih
        intro hc
        exact hcont.2 hc

theorem cachePut_lookup (qc : QueryCache) (now k : Nat)
    (r : List SearchResult) :
    List.lookup k (cachePut qc now k r).entries = some ⟨r, now⟩ := by
  unfold cachePut
  split
  · exact assocInsert_lookup _ _ _
  · split
    · exact assocInsert_lookup _ _ _
    · split
      · exact assocInsert_lookup _ _ _
      · exact assocInsert_lookup _ _ _

theorem cachePut_ttl (qc : QueryCache) (now k : Nat)
    (r : List SearchResult) : (cachePut qc now k r).ttl = qc.ttl := by
  unfold cachePut
  split
  · rfl
  · split
    · rfl
    · split <;> rfl

/-- **C10.** The search-cache key depends only on the first eight
(float32-converted) query components together with `topK`, `threshold` and
`productID` — two query vectors agreeing on their first eight components
yield the identical key — and, within the TTL, a second `Search` with the
other vector returns the first search's result list verbatim from the
cache. -/
theorem c10_hash_cache (f32bits f64bits : ℚ → Nat) (cpus now now' : Nat)
    (s : SQLiteVectorStore) (q1 q2 : Vec) (topK : Nat) (threshold : ℚ)
    (productID : String)
    (h8 : q1.take 8 = q2.take 8)
    (hloaded : s.loaded = true)
    (hmiss : List.lookup (hashQueryVector (q1.map f32bits) topK
      (f64bits threshold) (strBytes productID)) s.searchCache.entries = none)
    (hne : ¬(s.meta.length = 0 ∨
      (getRelevantIndices s productID).length = 0 ∨ s.arenaDim = 0))
    (hnorm : ¬ vectorNorm q1 = 0)
    (hfresh : now' - now ≤ s.searchCache.ttl) :
    hashQueryVector (q1.map f32bits) topK (f64bits threshold)
        (strBytes productID) =
      hashQueryVector (q2.map f32bits) topK (f64bits threshold)
        (strBytes productID) ∧
    ((s.Search f32bits f64bits cpus now q1 topK threshold productID).2.Search
        f32bits f64bits cpus now' q2 topK threshold productID).1 =
      (s.Search f32bits f64bits cpus now q1 topK threshold productID).1 := by
  have hmaps : (q1.map f32bits).take 8 = (q2.map f32bits).take 8 := by
    rw [← List.map_take, ← List.map_take, h8]
  have hkey := hashQueryVector_take8 hmaps topK (f64bits threshold)
    (strBytes productID)
  refine ⟨hkey, ?_⟩
  have hget1 : cacheGet s.searchCache now
      (hashQueryVector (q1.map f32bits) topK (f64bits threshold)
        (strBytes productID)) = (none, s.searchCache) := by
    unfold cacheGet
    rw [hmiss]
  have hens : ensureCache {s with searchCache := s.searchCache} = s := by
    have heta : ({s with searchCache := s.searchCache} : SQLiteVectorStore) = s := rfl
    rw [heta]
    unfold ensureCache
    rw [hloaded]
    rfl
  have hp1 : s.Search f32bits f64bits cpus now q1 topK threshold productID =
      (searchBody s.meta s.arenaData s.arenaDim cpus q1 (vectorNorm q1)
        threshold topK (getRelevantIndices s productID),
       {s with searchCache := (cachePut s.searchCache now
         (hashQueryVector (q1.map f32bits) topK (f64bits threshold)
           (strBytes productID))
         (searchBody s.meta s.arenaData s.arenaDim cpus q1 (vectorNorm q1)
           threshold topK (getRelevantIndices s productID)))}) := by
    simp only [SQLiteVectorStore.Search, hget1, hens, if_neg hne,
      if_neg hnorm]
  rw [hp1]
  have hlook : List.lookup (hashQueryVector (q2.map f32bits) topK
      (f64bits threshold) (strBytes productID))
      (cachePut s.searchCache now
        (hashQueryVector (q1.map f32bits) topK (f64bits threshold)
          (strBytes productID))
        (searchBody s.meta s.arenaData s.arenaDim cpus q1 (vectorNorm q1)
          threshold topK (getRelevantIndices s productID))).entries =
      some ⟨searchBody s.meta s.arenaData s.arenaDim cpus q1 (vectorNorm q1)
        threshold topK (getRelevantIndices s productID), now⟩ := by
    rw [← hkey]
    exact cachePut_lookup _ _ _ _
  have httl : ¬ ((cachePut s.searchCache now
      (hashQueryVector (q1.map f32bits) topK (f64bits threshold)
        (strBytes productID))
      (searchBody s.meta s.arenaData s.arenaDim cpus q1 (vectorNorm q1)
        threshold topK (getRelevantIndices s productID))).ttl <
      now' - now) := by
    rw [cachePut_ttl]
    omega
  have hget2 : (cacheGet (cachePut s.searchCache now
      (hashQueryVector (q1.map f32bits) topK (f64bits threshold)
        (strBytes productID))
      (searchBody s.meta s.arenaData s.arenaDim cpus q1 (vectorNorm q1)
        threshold topK (getRelevantIndices s productID))) now'
      (hashQueryVector (q2.map f32bits) topK (f64bits threshold)
        (strBytes productID))).1 =
      some (searchBody s.meta s.arenaData s.arenaDim cpus q1 (vectorNorm q1)
        threshold topK (getRelevantIndices s productID)) := by
    unfold cacheGet
    rw [hlook]
    simp only
    rw [if_neg httl]
  simp only [SQLiteVectorStore.Search, hget2]

/-- A tiny loaded store for the cache witness (empty cache, dimension 1). -/
def c10WitnessStore : SQLiteVectorStore :=
  { documents := ["d"],
    rows := [⟨"d-0", "d", "n", 0, "t", [1], "", ""⟩],
    loaded := true,
    meta := [⟨"t", 0, "d", "n", 1, "", "", ['t'], []⟩],
    arenaData := [1], arenaDim := 1,
    productIndex := [("", [0])],
    searchCache := ⟨[], [], 256, 300⟩ }

/-- **C10 witness.** Two distinct query vectors agreeing on their first
eight components: the hypotheses hold concretely and the hash keys coincide,
with the second search served verbatim from the cache. -/
theorem c10_hash_cache_witness :
    (([(1 : ℚ), 0, 0, 0, 0, 0, 0, 0] : Vec).take 8 =
      ([(1 : ℚ), 0, 0, 0, 0, 0, 0, 0, 1] : Vec).take 8) ∧
    (List.lookup (hashQueryVector (([(1 : ℚ), 0, 0, 0, 0, 0, 0, 0] : Vec).map
        (fun _ => 0)) 1 0 (strBytes ""))
      c10WitnessStore.searchCache.entries = none) ∧
    ¬ vectorNorm ([(1 : ℚ), 0, 0, 0, 0, 0, 0, 0] : Vec) = 0 ∧
    (hashQueryVector (([(1 : ℚ), 0, 0, 0, 0, 0, 0, 0] : Vec).map
        (fun _ => 0)) 1 0 (strBytes "") =
      hashQueryVector (([(1 : ℚ), 0, 0, 0, 0, 0, 0, 0, 1] : Vec).map
        (fun _ => 0)) 1 0 (strBytes "") ∧
    ((c10WitnessStore.Search (fun _ => 0) (fun _ => 0) 1 0
        [1, 0, 0, 0, 0, 0, 0, 0] 1 0 "").2.Search (fun _ => 0) (fun _ => 0)
        1 100 [1, 0, 0, 0, 0, 0, 0, 0, 1] 1 0 "").1 =
      (c10WitnessStore.Search (fun _ => 0) (fun _ => 0) 1 0
        [1, 0, 0, 0, 0, 0, 0, 0] 1 0 "").1) := by
  have hnorm : ¬ vectorNorm ([(1 : ℚ), 0, 0, 0, 0, 0, 0, 0] : Vec) = 0 := by
    simp [vectorNorm]
  refine ⟨by decide, by decide, hnorm, ?_⟩
  exact c10_hash_cache (fun _ => 0) (fun _ => 0) 1 0 100 c10WitnessStore
    [1, 0, 0, 0, 0, 0, 0, 0] [1, 0, 0, 0, 0, 0, 0, 0, 1] 1 0 ""
    (by decide) rfl (by decide) (by decide) hnorm (by decide)

theorem insertRow_some {documents : List String} {table : List ChunkRow}
    {r : ChunkRow} {t' : List ChunkRow}
    (h : insertRow documents table r = some t') : t' = table ++ [r] := by
  unfold insertRow at h
  split at h
  · cases h
  · split at h
    · cases h
    · exact (Option.some.injEq _ _).mp h.symm

theorem txInsertAll_some (documents : List String) (docID : String) :
    ∀ (chunks : List VectorChunk) (table t' : List ChunkRow),
    txInsertAll documents table chunks docID = some t' →
    t' = table ++ chunks.map (rowOfChunk docID) := by
  intro chunks
  induction chunks with
  | nil =>
      intro table t' h
      simp only [txInsertAll] at h
      simp [(Option.some.injEq _ _).mp h.symm]
  | cons c cs ih =>
      intro table t' h
      simp only [txInsertAll] at h
      rcases hins : insertRow documents table (rowOfChunk docID c) with _ | t1
      · rw [hins] at h; cases h
      · rw [hins] at h
        have h1 := insertRow_some hins
        have h2 := ih t1 t' h
        rw [h2, h1]
        simp

theorem storeFold_fields (chunks : List VectorChunk) :
    ∀ s1 : SQLiteVectorStore,
    (chunks.foldl (fun st c =>
      { st with
        meta := st.meta ++ [metaOfChunk c],
        arenaDim := if st.arenaDim = 0 ∧ c.Vector.length ≠ 0 then
          c.Vector.length else st.arenaDim,
        arenaData := st.arenaData ++ c.Vector,
        productIndex := pidxAppend st.productIndex c.ProductID st.meta.length }) s1).meta =
      s1.meta ++ chunks.map metaOfChunk ∧
    (chunks.foldl (fun st c =>
      { st with
        meta := st.meta ++ [metaOfChunk c],
        arenaDim := if st.arenaDim = 0 ∧ c.Vector.length ≠ 0 then
          c.Vector.length else st.arenaDim,
        arenaData := st.arenaData ++ c.Vector,
        productIndex := pidxAppend st.productIndex c.ProductID st.meta.length }) s1).arenaData =
      s1.arenaData ++ (chunks.map (fun c => c.Vector)).flatten ∧
    (chunks.foldl (fun st c =>
      { st with
        meta := st.meta ++ [metaOfChunk c],
        arenaDim := if st.arenaDim = 0 ∧ c.Vector.length ≠ 0 then
          c.Vector.length else st.arenaDim,
        arenaData := st.arenaData ++ c.Vector,
        productIndex := pidxAppend st.productIndex c.ProductID st.meta.length }) s1).rows =
      s1.rows ∧
    (chunks.foldl (fun st c =>
      { st with
        meta := st.meta ++ [metaOfChunk c],
        arenaDim := if st.arenaDim = 0 ∧ c.Vector.length ≠ 0 then
          c.Vector.length else st.arenaDim,
        arenaData := st.arenaData ++ c.Vector,
        productIndex := pidxAppend st.productIndex c.ProductID st.meta.length }) s1).loaded =
      s1.loaded := by
  induction chunks with
  | nil => intro s1; exact ⟨by simp, by simp, rfl, rfl⟩
  | cons c cs ih =>
      intro s1
      rw [List.foldl_cons]
      have := ih { s1 with
        meta := s1.meta ++ [metaOfChunk c],
        arenaDim := if s1.arenaDim = 0 ∧ c.Vector.length ≠ 0 then
          c.Vector.length else s1.arenaDim,
        arenaData := s1.arenaData ++ c.Vector,
        productIndex := pidxAppend s1.productIndex c.ProductID s1.meta.length }
      refine ⟨?_, ?_, ?_, ?_⟩
      · rw [this.1]; simp
      · rw [this.2.1]; simp
      · rw [this.2.2.1]
      · rw [this.2.2.2]

theorem loadCache_fields (s : SQLiteVectorStore) :
    (loadCache s).rows = s.rows ∧ (loadCache s).loaded = true ∧
    (loadCache s).meta = s.rows.map metaOfRow ∧
    (loadCache s).arenaData = (s.rows.map (fun r => r.vector)).flatten := by
  unfold loadCache
  split
  · rename_i hz
    have h0 : s.rows = [] := List.length_eq_zero.mp hz
    simp [h0]
  · simp

/-- **C4.** If any insert of the `Store` transaction fails, the transaction
is rolled back and the whole state — rows, in-memory arena, chunk metadata
and product index — is unchanged; if all inserts succeed, rows with id
`"{document_id}-{chunk_index}"` are committed, the new vectors and metadata
are appended to the arena (or the arena is rebuilt from the table if it was
unloaded), and the query cache is invalidated. -/
theorem c4_store_tx (s : SQLiteVectorStore) (docID : String)
    (chunks : List VectorChunk) (s' : SQLiteVectorStore) (ok : Bool)
    (h : s.Store docID chunks = (s', ok)) :
    (ok = false → s' = s) ∧
    (ok = true →
      s'.rows = s.rows ++ chunks.map (rowOfChunk docID) ∧
      s'.searchCache.entries = [] ∧ s'.searchCache.order = [] ∧
      (s.loaded = true →
        s'.meta = s.meta ++ chunks.map metaOfChunk ∧
        s'.arenaData = s.arenaData ++ (chunks.map (fun c => c.Vector)).flatten ∧
        s'.loaded = true) ∧
      (s.loaded = false →
        s'.loaded = true ∧
        s'.meta = s'.rows.map metaOfRow ∧
        s'.arenaData = (s'.rows.map (fun r => r.vector)).flatten)) := by
  unfold SQLiteVectorStore.Store at h
  rcases htx : txInsertAll s.documents s.rows chunks docID with _ | rows'
  · rw [htx] at h
    simp only [Prod.mk.injEq] at h
    exact ⟨fun _ => h.1.symm,
      fun hok => absurd (h.2.trans hok) (by simp)⟩
  · rw [htx] at h
    simp only [Prod.mk.injEq] at h
    have hrows' := txInsertAll_some s.documents docID chunks s.rows rows' htx
    rcases h with ⟨hs', hok⟩
    refine ⟨fun hf => absurd (hok.trans hf) (by simp), fun _ => ?_⟩
    rcases hload : s.loaded
    · have hcase : ¬ ({s with rows := rows'} : SQLiteVectorStore).loaded = true := by
        simp [hload]
      rw [if_neg hcase] at hs'
      have hlf := loadCache_fields {s with rows := rows'}
      rw [← hs']
      simp only [cacheInvalidate]
      refine ⟨by rw [hlf.1]; exact hrows', trivial, trivial, ?_, ?_⟩
      · intro hc
        exact absurd hc (by decide)
      · intro _
        refine ⟨hlf.2.1, ?_, ?_⟩
        · rw [hlf.2.2.1, hlf.1]
        · rw [hlf.2.2.2, hlf.1]
    · have hcase : ({s with rows := rows'} : SQLiteVectorStore).loaded = true := by
        simp [hload]
      rw [if_pos hcase] at hs'
      have hff := storeFold_fields chunks {s with rows := rows'}
      rw [← hs']
      simp only [cacheInvalidate]
      refine ⟨by rw [hff.2.2.1]; exact hrows', trivial, trivial, ?_, ?_⟩
      · intro _
        exact ⟨hff.1, hff.2.1, by rw [hff.2.2.2]; exact hload⟩
      · intro hc
        exact absurd hc (by decide)

/-- An unloaded store with one registered document, for the `Store`
witness. -/
def c4WitnessStore : SQLiteVectorStore :=
  { documents := ["d"], rows := [], loaded := false, meta := [],
    arenaData := [], arenaDim := 0, productIndex := [],
    searchCache := ⟨[(0, ⟨[], 0⟩)], [0], 256, 300⟩ }

/-- **C4 witness.** Storing one chunk into `c4WitnessStore` succeeds: the
committed row gets id `"d-0"`, and the query cache is invalidated. -/
theorem c4_store_tx_witness :
    (c4WitnessStore.Store "d" [⟨"t", 0, "d", "n", [1], "", ""⟩]).2 = true ∧
    (c4WitnessStore.Store "d" [⟨"t", 0, "d", "n", [1], "", ""⟩]).1.rows =
      c4WitnessStore.rows ++
        [VectorChunk.mk "t" 0 "d" "n" [1] "" ""].map (rowOfChunk "d") ∧
    (c4WitnessStore.Store "d" [⟨"t", 0, "d", "n", [1], "", ""⟩]).1.searchCache.entries = [] := by
  have hok : (c4WitnessStore.Store "d" [⟨"t", 0, "d", "n", [1], "", ""⟩]).2 = true := by
    decide
  have happ := c4_store_tx c4WitnessStore "d" [⟨"t", 0, "d", "n", [1], "", ""⟩]
    (c4WitnessStore.Store "d" [⟨"t", 0, "d", "n", [1], "", ""⟩]).1
    (c4WitnessStore.Store "d" [⟨"t", 0, "d", "n", [1], "", ""⟩]).2 rfl
  exact ⟨hok, (happ.2 hok).1, (happ.2 hok).2.1⟩

/-- The product index built by appending keys with consecutive indices
starting at `n` (the common shape of the `loadCache` and `DeleteByDocID`
index-rebuild loops). -/
def pidxBuildFrom (p : List (String × List Nat)) (n : Nat) :
    List String → List (String × List Nat)
  | [] => p
  | k :: ks => pidxBuildFrom (pidxAppend p k n) (n + 1) ks

theorem storeExt (a b : SQLiteVectorStore)
    (h1 : a.documents = b.documents) (h2 : a.rows = b.rows)
    (h3 : a.loaded = b.loaded) (h4 : a.meta = b.meta)
    (h5 : a.arenaData = b.arenaData) (h6 : a.arenaDim = b.arenaDim)
    (h7 : a.productIndex = b.productIndex)
    (h8 : a.searchCache = b.searchCache) : a = b := by
  cases a
  cases b
  simp only at h1 h2 h3 h4 h5 h6 h7 h8
  rw [h1, h2, h3, h4, h5, h6, h7, h8]

theorem pidxOfRows_eq_buildFrom :
    ∀ (l : List ChunkRow) (n : Nat) (p : List (String × List Nat)),
    (l.enumFrom n).foldl (fun p ir => pidxAppend p ir.2.productID ir.1) p =
      pidxBuildFrom p n (l.map (fun r => r.productID)) := by
  intro l
  induction l with
  | nil => intro n p; rfl
  | cons r rest ih =>
      intro n p
      simp only [List.enumFrom, List.foldl_cons, List.map_cons, pidxBuildFrom]
      exact ih (n + 1) (pidxAppend p r.productID n)

theorem delete_fields (s : SQLiteVectorStore) (docID : String) :
    (s.DeleteByDocID docID).documents = s.documents ∧
    (s.DeleteByDocID docID).rows =
      s.rows.filter (fun r => r.documentID ≠ docID) ∧
    (s.DeleteByDocID docID).loaded = s.loaded ∧
    (s.DeleteByDocID docID).arenaDim = s.arenaDim ∧
    (s.DeleteByDocID docID).searchCache = cacheInvalidate s.searchCache := by
  simp only [SQLiteVectorStore.DeleteByDocID]
  rcases hl : s.loaded
  · rw [if_neg (by simp)]
    exact ⟨rfl, rfl, rfl, rfl, rfl⟩
  · rw [if_pos rfl]
    exact ⟨rfl, rfl, rfl, rfl, rfl⟩

theorem loadCache_fields2 (s : SQLiteVectorStore) :
    (loadCache s).arenaDim = dimOfRows s.rows ∧
    (loadCache s).productIndex = pidxOfRows s.rows ∧
    (loadCache s).documents = s.documents ∧
    (loadCache s).searchCache = s.searchCache := by
  unfold loadCache
  split
  · rename_i hz
    have h0 : s.rows = [] := List.length_eq_zero.mp hz
    rw [h0]
    exact ⟨rfl, rfl, rfl, rfl⟩
  · exact ⟨rfl, rfl, rfl, rfl⟩

/-- The store one would get by loading the arena from scratch had
`docID`'s rows never been present (the "baseline run" of the claim): the
filtered table freshly loaded, with an invalidated query cache. -/
def baselineStore (s : SQLiteVectorStore) (docID : String) :
    SQLiteVectorStore :=
  loadCache
    { documents := s.documents,
      rows := s.rows.filter (fun r => r.documentID ≠ docID),
      loaded := false, meta := [], arenaData := [], arenaDim := 0,
      productIndex := [],
      searchCache := cacheInvalidate s.searchCache }

theorem delFold_spec (docID : String) (dim : Nat) (arena : List ℚ) :
    ∀ (l : List (Nat × ChunkMeta))
      (acc : List ChunkMeta × List ℚ × List (String × List Nat)),
    (∀ im ∈ l, im.1 * dim + dim ≤ arena.length) →
    (l.foldl (delStep docID dim arena) acc).1 =
      acc.1 ++ (l.filter (fun im => im.2.documentID ≠ docID)).map
        (fun im => im.2) ∧
    (l.foldl (delStep docID dim arena) acc).2.1 =
      acc.2.1 ++ ((l.filter (fun im => im.2.documentID ≠ docID)).map
        (fun im => (arena.drop (im.1 * dim)).take dim)).flatten ∧
    (l.foldl (delStep docID dim arena) acc).2.2 =
      pidxBuildFrom acc.2.2 acc.1.length
        ((l.filter (fun im => im.2.documentID ≠ docID)).map
          (fun im => im.2.productID)) := by
  intro l
  induction l with
  | nil => intro acc _; exact ⟨by simp, by simp, rfl⟩
  | cons im rest ih =>
      intro acc hg
      rw [List.foldl_cons]
      have hgr : ∀ jm ∈ rest, jm.1 * dim + dim ≤ arena.length :=
        fun jm hjm => hg jm (List.mem_cons_of_mem im hjm)
      by_cases hd : im.2.documentID ≠ docID
      · have hstep : delStep docID dim arena acc im =
            (acc.1 ++ [im.2],
             acc.2.1 ++ (arena.drop (im.1 * dim)).take dim,
             pidxAppend acc.2.2 im.2.productID acc.1.length) := by
          unfold delStep
          rw [if_pos hd]
          rcases Nat.eq_zero_or_pos dim with h0 | h0
          · rw [if_neg (by omega)]
            simp [h0]
          · rw [if_pos h0,
              if_pos (hg im (List.mem_cons_self im rest))]
        rw [hstep]
        have := ih (acc.1 ++ [im.2],
          acc.2.1 ++ (arena.drop (im.1 * dim)).take dim,
          pidxAppend acc.2.2 im.2.productID acc.1.length) hgr
        rw [List.filter_cons_of_pos (by simpa using hd)]
        refine ⟨?_, ?_, ?_⟩
        · rw [this.1]
          simp
        · rw [this.2.1]
          simp
        · rw [this.2.2]
          simp only [List.map_cons, pidxBuildFrom, List.length_append,
            List.length_cons, List.length_nil]
      · have hstep : delStep docID dim arena acc im = acc := by
          unfold delStep
          rw [if_neg hd]
        rw [hstep, List.filter_cons_of_neg (by simpa using hd)]
        exact ih acc hgr

theorem enum_filter_snd {α : Type} (p : α → Bool) (l : List α) :
    (l.enum.filter (fun ia => p ia.2)).map (fun ia => ia.2) = l.filter p := by
  have h1 : (l.enum.filter (fun ia => p ia.2)).map (fun ia : Nat × α => ia.2) =
      (l.enum.map (fun ia : Nat × α => ia.2)).filter p :=
    (List.filter_map (fun ia : Nat × α => ia.2) l.enum).symm
  rw [h1]
  have h2 : l.enum.map (fun ia : Nat × α => ia.2) = l :=
    List.enum_map_snd l
  rw [h2]

theorem dimOfRows_uniform :
    ∀ (l : List ChunkRow) (dim : Nat),
    (∀ r ∈ l, r.vector.length = dim) → l ≠ [] → dimOfRows l = dim := by
  intro l
  induction l with
  | nil => intro dim _ hne; exact absurd rfl hne
  | cons r rest ih =>
      intro dim hu _
      have hr : r.vector.length = dim := hu r (List.mem_cons_self r rest)
      unfold dimOfRows
      rcases Nat.eq_zero_or_pos dim with h0 | h0
      · rw [if_neg (by omega)]
        rcases hrest : rest with _ | ⟨r2, rest2⟩
        · simp [dimOfRows, h0]
        · rw [← hrest]
          exact ih dim (fun x hx => hu x (List.mem_cons_of_mem r hx))
            (by rw [hrest]; simp)
      · rw [if_pos (by omega)]
        exact hr

theorem flatten_rows_length :
    ∀ (l : List ChunkRow) (dim : Nat),
    (∀ r ∈ l, r.vector.length = dim) →
    ((l.map (fun r => r.vector)).flatten).length = l.length * dim := by
  intro l
  induction l with
  | nil => intro dim _; simp
  | cons r rest ih =>
      intro dim hu
      simp only [List.map_cons, List.flatten_cons, List.length_append,
        List.length_cons]
      rw [hu r (List.mem_cons_self r rest),
        ih dim (fun x hx => hu x (List.mem_cons_of_mem r hx))]
      ring

theorem flatten_rows_span (dim : Nat) :
    ∀ (l : List ChunkRow),
    (∀ r ∈ l, r.vector.length = dim) →
    ∀ (i : Nat) (r : ChunkRow), l[i]? = some r →
    (((l.map (fun r => r.vector)).flatten).drop (i * dim)).take dim =
      r.vector := by
  intro l
  induction l with
  | nil => intro _ i r h; simp at h
  | cons r0 rest ih =>
      intro hu i r h
      rcases i with _ | j
      · simp only [List.getElem?_cons_zero, Option.some.injEq] at h
        simp only [List.map_cons, List.flatten_cons, Nat.zero_mul,
          List.drop_zero]
        rw [← h, ← hu r0 (List.mem_cons_self r0 rest), List.take_left]
      · simp only [List.getElem?_cons_succ] at h
        simp only [List.map_cons, List.flatten_cons]
        have harith : (j + 1) * dim = r0.vector.length + j * dim := by
          rw [hu r0 (List.mem_cons_self r0 rest)]
          ring
        rw [harith, ← List.drop_drop, List.drop_left]
        exact ih (fun x hx => hu x (List.mem_cons_of_mem r0 hx)) j r h

theorem enumFrom_meta_filter (docID : String) :
    ∀ (rows : List ChunkRow) (k : Nat),
    (((rows.map metaOfRow).enumFrom k).filter
        (fun im => im.2.documentID ≠ docID)).map (fun im => im.2) =
      (rows.filter (fun r => r.documentID ≠ docID)).map metaOfRow := by
  intro rows
  induction rows with
  | nil => intro k; rfl
  | cons r rest ih =>
      intro k
      simp only [List.map_cons, List.enumFrom]
      by_cases hd : r.documentID ≠ docID
      · rw [List.filter_cons_of_pos (by simpa [metaOfRow] using hd),
          List.filter_cons_of_pos (by simpa using hd)]
        simp only [List.map_cons]
        rw [ih (k + 1)]
      · rw [List.filter_cons_of_neg (by simpa [metaOfRow] using hd),
          List.filter_cons_of_neg (by simpa using hd)]
        exact ih (k + 1)

theorem enumFrom_pid_filter (docID : String) :
    ∀ (rows : List ChunkRow) (k : Nat),
    (((rows.map metaOfRow).enumFrom k).filter
        (fun im => im.2.documentID ≠ docID)).map (fun im => im.2.productID) =
      (rows.filter (fun r => r.documentID ≠ docID)).map
        (fun r => r.productID) := by
  intro rows
  induction rows with
  | nil => intro k; rfl
  | cons r rest ih =>
      intro k
      simp only [List.map_cons, List.enumFrom]
      by_cases hd : r.documentID ≠ docID
      · rw [List.filter_cons_of_pos (by simpa [metaOfRow] using hd),
          List.filter_cons_of_pos (by simpa using hd)]
        simp only [List.map_cons]
        rw [ih (k + 1)]
        rfl
      · rw [List.filter_cons_of_neg (by simpa [metaOfRow] using hd),
          List.filter_cons_of_neg (by simpa using hd)]
        exact ih (k + 1)

theorem enumFrom_span_filter (docID : String) (dim : Nat) (arena : List ℚ) :
    ∀ (rows : List ChunkRow) (k : Nat),
    (∀ i r, rows[i]? = some r →
      ((arena.drop ((k + i) * dim)).take dim) = r.vector) →
    ((((rows.map metaOfRow).enumFrom k).filter
        (fun im => im.2.documentID ≠ docID)).map
      (fun im => (arena.drop (im.1 * dim)).take dim)).flatten =
      ((rows.filter (fun r => r.documentID ≠ docID)).map
        (fun r => r.vector)).flatten := by
  intro rows
  induction rows with
  | nil => intro k _; rfl
  | cons r rest ih =>
      intro k hspan
      simp only [List.map_cons, List.enumFrom]
      have hrestspan : ∀ i r', rest[i]? = some r' →
          ((arena.drop ((k + 1 + i) * dim)).take dim) = r'.vector := by
        intro i r' h
        have := hspan (i + 1) r' (by simpa using h)
        rwa [show k + (i + 1) = k + 1 + i by ring] at this
      by_cases hd : r.documentID ≠ docID
      · rw [List.filter_cons_of_pos (by simpa [metaOfRow] using hd),
          List.filter_cons_of_pos (by simpa using hd)]
        simp only [List.map_cons, List.flatten_cons]
        rw [ih (k + 1) hrestspan]
        have hr : (arena.drop (k * dim)).take dim = r.vector := by
          have := hspan 0 r (by simp)
          simpa using this
        rw [hr]
      · rw [List.filter_cons_of_neg (by simpa [metaOfRow] using hd),
          List.filter_cons_of_neg (by simpa using hd)]
        exact ih (k + 1) hrestspan

theorem deleteByDocID_sync (s : SQLiteVectorStore) (docID : String)
    (hloaded : s.loaded = true)
    (hmeta : s.meta = s.rows.map metaOfRow)
    (harena : s.arenaData = (s.rows.map (fun r => r.vector)).flatten)
    (huni : ∀ r ∈ s.rows, r.vector.length = s.arenaDim) :
    (s.DeleteByDocID docID).meta =
      (s.rows.filter (fun r => r.documentID ≠ docID)).map metaOfRow ∧
    (s.DeleteByDocID docID).arenaData =
      ((s.rows.filter (fun r => r.documentID ≠ docID)).map
        (fun r => r.vector)).flatten ∧
    (s.DeleteByDocID docID).productIndex =
      pidxOfRows (s.rows.filter (fun r => r.documentID ≠ docID)) ∧
    (s.DeleteByDocID docID).arenaData =
      ((s.meta.enum.filter (fun im => im.2.documentID ≠ docID)).map
        (fun im => (s.arenaData.drop (im.1 * s.arenaDim)).take
          s.arenaDim)).flatten := by
  have hguard : ∀ im ∈ s.meta.enum,
      im.1 * s.arenaDim + s.arenaDim ≤ s.arenaData.length := by
    intro im him
    obtain ⟨i, m⟩ := im
    show i * s.arenaDim + s.arenaDim ≤ s.arenaData.length
    have hget := List.mk_mem_enum_iff_getElem?.mp him
    have hlt : i < s.meta.length := (List.getElem?_eq_some.mp hget).1
    have hml : s.meta.length = s.rows.length := by rw [hmeta]; simp
    have hal : s.arenaData.length = s.rows.length * s.arenaDim := by
      rw [harena]
      exact flatten_rows_length s.rows s.arenaDim huni
    have h1 : i + 1 ≤ s.rows.length := by omega
    have h2 : (i + 1) * s.arenaDim ≤ s.rows.length * s.arenaDim :=
      Nat.mul_le_mul_right s.arenaDim h1
    have h3 : (i + 1) * s.arenaDim = i * s.arenaDim + s.arenaDim := by ring
    omega
  have hfold := delFold_spec docID s.arenaDim s.arenaData s.meta.enum
    ([], [], []) hguard
  have hspan : ∀ i r, s.rows[i]? = some r →
      ((s.arenaData.drop ((0 + i) * s.arenaDim)).take s.arenaDim) =
        r.vector := by
    intro i r h
    rw [harena]
    simpa using flatten_rows_span s.arenaDim s.rows huni i r h
  simp only [SQLiteVectorStore.DeleteByDocID]
  rw [if_pos hloaded]
  refine ⟨?_, ?_, ?_, ?_⟩
  · rw [hfold.1, hmeta]
    simpa using enumFrom_meta_filter docID s.rows 0
  · rw [hfold.2.1, hmeta]
    simpa using enumFrom_span_filter docID s.arenaDim s.arenaData s.rows 0
      hspan
  · rw [hfold.2.2, hmeta]
    have hb := pidxOfRows_eq_buildFrom
      (s.rows.filter (fun r => r.documentID ≠ docID)) 0 []
    have hpid := enumFrom_pid_filter docID s.rows 0
    unfold pidxOfRows
    rw [show ((s.rows.filter (fun r => r.documentID ≠ docID)).enum :
        List (Nat × ChunkRow)) =
      (s.rows.filter (fun r => r.documentID ≠ docID)).enumFrom 0 from rfl]
    rw [hb]
    simp only [List.length_nil]
    rw [show ((s.rows.map metaOfRow).enum : List (Nat × ChunkMeta)) =
      (s.rows.map metaOfRow).enumFrom 0 from rfl]
    rw [hpid]
  · rw [hfold.2.1]
    simp

theorem deleteByDocID_eq_baseline (s : SQLiteVectorStore) (docID : String)
    (hloaded : s.loaded = true)
    (hmeta : s.meta = s.rows.map metaOfRow)
    (harena : s.arenaData = (s.rows.map (fun r => r.vector)).flatten)
    (hdim : s.arenaDim = dimOfRows s.rows)
    (huni : ∀ r ∈ s.rows, r.vector.length = s.arenaDim)
    (hne : s.rows.filter (fun r => r.documentID ≠ docID) ≠ []) :
    s.DeleteByDocID docID = baselineStore s docID := by
  have hsync := deleteByDocID_sync s docID hloaded hmeta harena huni
  have hdf := delete_fields s docID
  have hlf := loadCache_fields
    { documents := s.documents,
      rows := s.rows.filter (fun r => r.documentID ≠ docID),
      loaded := false, meta := [], arenaData := [], arenaDim := 0,
      productIndex := [],
      searchCache := cacheInvalidate s.searchCache }
  have hlf2 := loadCache_fields2
    { documents := s.documents,
      rows := s.rows.filter (fun r => r.documentID ≠ docID),
      loaded := false, meta := [], arenaData := [], arenaDim := 0,
      productIndex := [],
      searchCache := cacheInvalidate s.searchCache }
  have huni' : ∀ r ∈ s.rows.filter (fun r => r.documentID ≠ docID),
      r.vector.length = s.arenaDim :=
    fun r hr => huni r (List.mem_of_mem_filter hr)
  have hdim2 : dimOfRows (s.rows.filter (fun r => r.documentID ≠ docID)) =
      s.arenaDim :=
    dimOfRows_uniform _ s.arenaDim huni' hne
  apply storeExt
  · rw [hdf.1]
    exact hlf2.2.2.1.symm
  · rw [hdf.2.1]
    exact hlf.1.symm
  · rw [hdf.2.2.1, hloaded]
    exact hlf.2.1.symm
  · rw [hsync.1]
    exact hlf.2.2.1.symm
  · rw [hsync.2.1]
    exact hlf.2.2.2.symm
  · rw [hdf.2.2.2.1]
    have hb : (baselineStore s docID).arenaDim =
        dimOfRows (s.rows.filter (fun r => r.documentID ≠ docID)) := hlf2.1
    rw [hb, hdim2]
  · rw [hsync.2.2.1]
    exact hlf2.2.1.symm
  · rw [hdf.2.2.2.2]
    exact hlf2.2.2.2.symm

theorem search_empty_meta (st : SQLiteVectorStore) (hl : st.loaded = true)
    (hc : st.searchCache.entries = []) (hm : st.meta = [])
    (f32 f64 : ℚ → Nat) (cpus now : Nat) (q : Vec) (k : Nat) (th : ℚ)
    (pid : String) :
    (st.Search f32 f64 cpus now q k th pid).1 = [] := by
  have hget : ∀ key, cacheGet st.searchCache now key =
      (none, st.searchCache) := by
    intro key
    unfold cacheGet
    rw [hc]
    rfl
  have hens : ensureCache {st with searchCache := st.searchCache} = st := by
    have heta : ({st with searchCache := st.searchCache} :
        SQLiteVectorStore) = st := rfl
    rw [heta]
    unfold ensureCache
    rw [hl]
    rfl
  simp only [SQLiteVectorStore.Search, hget, hens]
  rw [if_pos (Or.inl (by rw [hm]; rfl))]

theorem textSearch_empty_meta (st : SQLiteVectorStore)
    (hl : st.loaded = true) (hm : st.meta = [])
    (query : String) (k : Nat) (th : ℚ) (pid : String) :
    (st.TextSearch query k th pid).1 = [] := by
  have hens : ensureCache st = st := by
    unfold ensureCache
    rw [hl]
    rfl
  simp only [SQLiteVectorStore.TextSearch, hens]
  rw [if_pos (Or.inl (by rw [hm]; rfl))]

theorem search_results_from_meta (st : SQLiteVectorStore)
    (hl : st.loaded = true) (hc : st.searchCache.entries = [])
    (f32 f64 : ℚ → Nat) (cpus now : Nat) (q : Vec) (k : Nat) (th : ℚ)
    (pid : String) :
    ∀ x ∈ (st.Search f32 f64 cpus now q k th pid).1,
      ∃ m ∈ st.meta, x.DocumentID = m.documentID := by
  have hget : ∀ key, cacheGet st.searchCache now key =
      (none, st.searchCache) := by
    intro key
    unfold cacheGet
    rw [hc]
    rfl
  have hens : ensureCache {st with searchCache := st.searchCache} = st := by
    have heta : ({st with searchCache := st.searchCache} :
        SQLiteVectorStore) = st := rfl
    rw [heta]
    unfold ensureCache
    rw [hl]
    rfl
  simp only [SQLiteVectorStore.Search, hget, hens]
  split
  · simp
  · split
    · simp
    · exact (searchBody_spec st.meta st.arenaData st.arenaDim cpus q
        (vectorNorm q) th k (getRelevantIndices st pid)).2.2.2

theorem insertDesc_mem (it x : ScoredItem) :
    ∀ l : List ScoredItem, x ∈ insertDesc it l → x = it ∨ x ∈ l := by
  intro l
  induction l with
  | nil =>
      intro h
      simp [insertDesc] at h
      exact Or.inl h
  | cons y ys ih =>
      intro h
      unfold insertDesc at h
      split at h
      · rcases List.mem_cons.mp h with h1 | h2
        · exact Or.inl h1
        · exact Or.inr h2
      · rcases List.mem_cons.mp h with h1 | h2
        · exact Or.inr (h1 ▸ List.mem_cons_self y ys)
        · rcases ih h2 with h3 | h4
          · exact Or.inl h3
          · exact Or.inr (List.mem_cons_of_mem y h4)

theorem sortByScoreDesc_mem (x : ScoredItem) :
    ∀ l : List ScoredItem, x ∈ sortByScoreDesc l → x ∈ l := by
  intro l
  induction l with
  | nil => intro h; exact h
  | cons y ys ih =>
      intro h
      unfold sortByScoreDesc at h
      rw [List.foldr_cons] at h
      rcases insertDesc_mem y x _ h with h1 | h2
      · exact h1 ▸ List.mem_cons_self y ys
      · exact List.mem_cons_of_mem y (ih h2)

theorem textSearch_results_from_meta (st : SQLiteVectorStore)
    (hl : st.loaded = true) (query : String) (k : Nat) (th : ℚ)
    (pid : String) :
    ∀ x ∈ (st.TextSearch query k th pid).1,
      ∃ m ∈ st.meta, x.DocumentID = m.documentID := by
  have hens : ensureCache st = st := by
    unfold ensureCache
    rw [hl]
    rfl
  simp only [SQLiteVectorStore.TextSearch, hens]
  split
  · simp
  · intro x hx
    rcases List.mem_map.mp hx with ⟨it, hit, rfl⟩
    have hit2 := sortByScoreDesc_mem it _ (List.mem_of_mem_take hit)
    rcases List.mem_filterMap.mp hit2 with ⟨idx, _, hf⟩
    rcases hmi : st.meta[idx]? with _ | m
    · rw [hmi] at hf
      exact absurd hf (by simp)
    · rw [hmi] at hf
      simp only at hf
      split at hf
      · have hin := Option.some.inj hf
        refine ⟨m, List.getElem?_mem hmi, ?_⟩
        rw [← hin]
        unfold itemToResult
        rw [show st.meta[(⟨keywordOverlap
            (extractKeywords (query.toList.map Char.toLower)) m.textLower *
            (6 / 10) + jaccardBigrams
            (charBigrams (query.toList.map Char.toLower)) m.bigrams *
            (4 / 10), idx⟩ : ScoredItem).idx]? = some m from hmi]
      · exact absurd hf (by simp)

/-- **C5.** After `DeleteByDocID(d)` succeeds on a loaded store whose
in-memory arena is in sync with the table (the state `loadCache` or any
committed `Store` leaves behind) and whose row vectors all have the arena
dimension: no subsequent `Search` or `TextSearch` returns a result with
`document_id = d`; every surviving chunk's metadata entry is kept
unchanged (the new metadata is exactly the old list with `d`'s entries
filtered out) and its vector span is copied unchanged from the old arena
into the compacted buffer; and every subsequent `Search` and `TextSearch`
returns results identical to a baseline run on a store loaded from scratch
without document `d`. -/
theorem c5_delete_closure (s : SQLiteVectorStore) (docID : String)
    (hloaded : s.loaded = true)
    (hmeta : s.meta = s.rows.map metaOfRow)
    (harena : s.arenaData = (s.rows.map (fun r => r.vector)).flatten)
    (hdim : s.arenaDim = dimOfRows s.rows)
    (huni : ∀ r ∈ s.rows, r.vector.length = s.arenaDim) :
    (∀ f32bits f64bits : ℚ → Nat, ∀ cpus now : Nat, ∀ q : Vec,
      ∀ topK : Nat, ∀ threshold : ℚ, ∀ pid : String,
      ∀ x ∈ ((s.DeleteByDocID docID).Search f32bits f64bits cpus now q topK
        threshold pid).1, x.DocumentID ≠ docID) ∧
    (∀ query : String, ∀ topK : Nat, ∀ threshold : ℚ, ∀ pid : String,
      ∀ x ∈ ((s.DeleteByDocID docID).TextSearch query topK threshold
        pid).1, x.DocumentID ≠ docID) ∧
    (s.DeleteByDocID docID).meta =
      s.meta.filter (fun m => m.documentID ≠ docID) ∧
    (s.DeleteByDocID docID).arenaData =
      ((s.meta.enum.filter (fun im => im.2.documentID ≠ docID)).map
        (fun im => (s.arenaData.drop (im.1 * s.arenaDim)).take
          s.arenaDim)).flatten ∧
    (∀ f32bits f64bits : ℚ → Nat, ∀ cpus now : Nat, ∀ q : Vec,
      ∀ topK : Nat, ∀ threshold : ℚ, ∀ pid : String,
      ((s.DeleteByDocID docID).Search f32bits f64bits cpus now q topK
        threshold pid).1 =
      ((baselineStore s docID).Search f32bits f64bits cpus now q topK
        threshold pid).1) ∧
    (∀ query : String, ∀ topK : Nat, ∀ threshold : ℚ, ∀ pid : String,
      ((s.DeleteByDocID docID).TextSearch query topK threshold pid).1 =
      ((baselineStore s docID).TextSearch query topK threshold pid).1) := by
  have hsync := deleteByDocID_sync s docID hloaded hmeta harena huni
  have hdf := delete_fields s docID
  have h1 : (s.DeleteByDocID docID).loaded = true := by
    rw [hdf.2.2.1]
    exact hloaded
  have h2 : (s.DeleteByDocID docID).searchCache.entries = [] := by
    rw [hdf.2.2.2.2]
    rfl
  have hlf := loadCache_fields
    { documents := s.documents,
      rows := s.rows.filter (fun r => r.documentID ≠ docID),
      loaded := false, meta := [], arenaData := [], arenaDim := 0,
      productIndex := [],
      searchCache := cacheInvalidate s.searchCache }
  have hlf2 := loadCache_fields2
    { documents := s.documents,
      rows := s.rows.filter (fun r => r.documentID ≠ docID),
      loaded := false, meta := [], arenaData := [], arenaDim := 0,
      productIndex := [],
      searchCache := cacheInvalidate s.searchCache }
  have hb1 : (baselineStore s docID).loaded = true := hlf.2.1
  have hb2 : (baselineStore s docID).searchCache.entries = [] := by
    rw [show (baselineStore s docID).searchCache =
      cacheInvalidate s.searchCache from hlf2.2.2.2]
    rfl
  refine ⟨?_, ?_, ?_, ?_, ?_, ?_⟩
  · intro f32 f64 cpus now q topK threshold pid x hx
    rcases search_results_from_meta _ h1 h2 f32 f64 cpus now q topK
      threshold pid x hx with ⟨m, hm, hxm⟩
    rw [hsync.1] at hm
    rcases List.mem_map.mp hm with ⟨r, hr, rfl⟩
    have hrd : r.documentID ≠ docID := by
      simpa using (List.mem_filter.mp hr).2
    rw [hxm]
    simpa [metaOfRow] using hrd
  · intro query topK threshold pid x hx
    rcases textSearch_results_from_meta _ h1 query topK threshold pid x hx
      with ⟨m, hm, hxm⟩
    rw [hsync.1] at hm
    rcases List.mem_map.mp hm with ⟨r, hr, rfl⟩
    have hrd : r.documentID ≠ docID := by
      simpa using (List.mem_filter.mp hr).2
    rw [hxm]
    simpa [metaOfRow] using hrd
  · rw [hsync.1, hmeta, List.filter_map]
    rfl
  · exact hsync.2.2.2
  · intro f32 f64 cpus now q topK threshold pid
    by_cases hne : s.rows.filter (fun r => r.documentID ≠ docID) = []
    · have hmE : (s.DeleteByDocID docID).meta = [] := by
        rw [hsync.1, hne]
        rfl
      have hb3 : (baselineStore s docID).meta = [] := by
        rw [show (baselineStore s docID).meta =
          (s.rows.filter (fun r => r.documentID ≠ docID)).map metaOfRow
          from hlf.2.2.1, hne]
        rfl
      rw [search_empty_meta _ h1 h2 hmE f32 f64 cpus now q topK threshold
        pid, search_empty_meta _ hb1 hb2 hb3 f32 f64 cpus now q topK
        threshold pid]
    · rw [deleteByDocID_eq_baseline s docID hloaded hmeta harena hdim huni
        hne]
  · intro query topK threshold pid
    by_cases hne : s.rows.filter (fun r => r.documentID ≠ docID) = []
    · have hmE : (s.DeleteByDocID docID).meta = [] := by
        rw [hsync.1, hne]
        rfl
      have hb3 : (baselineStore s docID).meta = [] := by
        rw [show (baselineStore s docID).meta =
          (s.rows.filter (fun r => r.documentID ≠ docID)).map metaOfRow
          from hlf.2.2.1, hne]
        rfl
      rw [textSearch_empty_meta _ h1 hmE query topK threshold pid,
        textSearch_empty_meta _ hb1 hb3 query topK threshold pid]
    · rw [deleteByDocID_eq_baseline s docID hloaded hmeta harena hdim huni
        hne]

/-- The table of the delete witness: one chunk each for documents `"d"`
and `"e"`, both of dimension 1. -/
def c5WitnessRows : List ChunkRow :=
  [⟨"d-0", "d", "n", 0, "t", [1], "", ""⟩,
   ⟨"e-0", "e", "n", 0, "u", [1], "", ""⟩]

/-- A loaded two-document store whose arena is in sync with its table, for
the delete witness. -/
def c5WitnessStore : SQLiteVectorStore :=
  { documents := ["d", "e"],
    rows := c5WitnessRows,
    loaded := true,
    meta := c5WitnessRows.map metaOfRow,
    arenaData := (c5WitnessRows.map (fun r => r.vector)).flatten,
    arenaDim := dimOfRows c5WitnessRows,
    productIndex := pidxOfRows c5WitnessRows,
    searchCache := ⟨[], [], 256, 300⟩ }

/-- **C5 witness.** Deleting document `"d"` from `c5WitnessStore`: the
sync hypotheses hold concretely, the surviving metadata is the filtered
list, and no subsequent `Search` returns a hit for `"d"`. -/
theorem c5_delete_closure_witness :
    (c5WitnessStore.loaded = true ∧
     c5WitnessStore.meta = c5WitnessStore.rows.map metaOfRow ∧
     c5WitnessStore.arenaData =
       (c5WitnessStore.rows.map (fun r => r.vector)).flatten ∧
     c5WitnessStore.arenaDim = dimOfRows c5WitnessStore.rows ∧
     (∀ r ∈ c5WitnessStore.rows,
       r.vector.length = c5WitnessStore.arenaDim)) ∧
    (c5WitnessStore.DeleteByDocID "d").meta =
      c5WitnessStore.meta.filter (fun m => m.documentID ≠ "d") ∧
    (∀ f32bits f64bits : ℚ → Nat, ∀ cpus now : Nat, ∀ q : Vec,
      ∀ topK : Nat, ∀ threshold : ℚ, ∀ pid : String,
      ∀ x ∈ ((c5WitnessStore.DeleteByDocID "d").Search f32bits f64bits
        cpus now q topK threshold pid).1, x.DocumentID ≠ "d") :=
  let h := c5_delete_closure c5WitnessStore "d" rfl rfl rfl rfl (by decide)
  ⟨⟨rfl, rfl, rfl, rfl, by decide⟩, h.2.2.1, h.1⟩

/-- A row of the `pending_questions` table. -/
structure PendingRow where
  id : String
  question : String
  userID : String
  status : String
  answer : Option String
  llmAnswer : Option String
  createdAt : Nat
  answeredAt : Option Nat
  deriving DecidableEq

/-- Insertion into a `created_at`-descending list (models
`ORDER BY created_at DESC`). -/
def insertByCreatedDesc (r : PendingRow) :
    List PendingRow → List PendingRow
  | [] => [r]
  | x :: xs =>
    if x.createdAt < r.createdAt then r :: x :: xs
    else x :: insertByCreatedDesc r xs

/-- Sort pending rows by `created_at` descending. -/
def sortByCreatedDesc (l : List PendingRow) : List PendingRow :=
  l.foldr insertByCreatedDesc []

/-- The question texts read by `findSimilarPendingQuestion`:
`SELECT question FROM pending_questions WHERE status = 'pending'
ORDER BY created_at DESC LIMIT 50`. -/
def recentPending (table : List PendingRow) : List String :=
  ((sortByCreatedDesc (table.filter
    (fun r => r.status = "pending"))).take 50).map (fun r => r.question)

/-- `cosineSimilarity`: zero on mismatched or empty lengths and on a
zero-norm side, else `dot / (√‖a‖² · √‖b‖²)`. -/
def cosineSimilarity (a b : Vec) : ℚ :=
  if a.length ≠ b.length ∨ a.length = 0 then 0
  else
    let dot := dotProduct a b
    let normA := dotProduct a a
    let normB := dotProduct b b
    if normA = 0 ∨ normB = 0 then 0
    else dot / (Rat.sqrt normA * Rat.sqrt normB)

/-- `findSimilarPendingQuestion`: batch-embed the latest 50 pending
questions (an embedding failure, like a db error, yields `""`) and return
the first question whose cosine similarity to the query vector reaches
0.85; `""` doubles as the not-found sentinel. -/
def findSimilarPendingQuestion
    (embedBatch : List String → Option (List Vec))
    (table : List PendingRow) (queryVector : Vec) : String :=
  let pqs := recentPending table
  if pqs.length = 0 then ""
  else
    match embedBatch pqs with
    | none => ""
    | some pqVecs =>
      match (pqs.zip pqVecs).find?
          (fun p => (85 / 100 : ℚ) ≤ cosineSimilarity queryVector p.2) with
      | some p => p.1
      | none => ""

/-- `createPendingQuestion`: one `INSERT INTO pending_questions` with
status `"pending"` (`newId` models `generateID()`, failing on a duplicate
primary key). -/
def createPendingQuestion (table : List PendingRow)
    (newId question userID : String) (now : Nat) :
    Option (List PendingRow) :=
  if (table.map (fun r => r.id)).contains newId then none
  else some (table ++
    [⟨newId, question, userID, "pending", none, none, now, none⟩])

/-- The duplicate-pending message of the zero-results branch. -/
def pendingMsgExisting : String := "该问题已在处理中，请耐心等待回复"

/-- The created-pending message of the zero-results branch. -/
def pendingMsgCreated : String := "该问题已转交人工处理，请稍后查看回复"

/-- The translation step applied to both messages: keep the LLM output
unless the call errors or returns the empty string. -/
def applyTranslation (translate : String → Option String) (msg : String) :
    String :=
  match translate msg with
  | some t => if t = "" then msg else t
  | none => msg

/-- The `len(results) == 0` branch of `Query` (step 4): dedup against
recent pending questions, else insert one new pending row; both paths
answer `is_pending = true`.  The result is `(is_pending, message, table)`;
`none` models the error return when the insert fails. -/
def queryZeroResults (embedBatch : List String → Option (List Vec))
    (translate : String → Option String) (table : List PendingRow)
    (question userID newId : String) (now : Nat) (queryVector : Vec) :
    Option (Bool × String × List PendingRow) :=
  let existing := findSimilarPendingQuestion embedBatch table queryVector
  if existing ≠ "" then
    some (true, applyTranslation translate pendingMsgExisting, table)
  else
    match createPendingQuestion table newId question userID now with
    | none => none
    | some table' =>
      some (true, applyTranslation translate pendingMsgCreated, table')

theorem insertByCreatedDesc_mem (r x : PendingRow) :
    ∀ l : List PendingRow, x ∈ insertByCreatedDesc r l → x = r ∨ x ∈ l := by
  intro l
  induction l with
  | nil =>
      intro h
      simp [insertByCreatedDesc] at h
      exact Or.inl h
  | cons y ys ih =>
      intro h
      unfold insertByCreatedDesc at h
      split at h
      · rcases List.mem_cons.mp h with h1 | h2
        · exact Or.inl h1
        · exact Or.inr h2
      · rcases List.mem_cons.mp h with h1 | h2
        · exact Or.inr (h1 ▸ List.mem_cons_self y ys)
        · rcases ih h2 with h3 | h4
          · exact Or.inl h3
          · exact Or.inr (List.mem_cons_of_mem y h4)

theorem sortByCreatedDesc_mem (x : PendingRow) :
    ∀ l : List PendingRow, x ∈ sortByCreatedDesc l → x ∈ l := by
  intro l
  induction l with
  | nil => intro h; exact h
  | cons y ys ih =>
      intro h
      unfold sortByCreatedDesc at h
      rw [List.foldr_cons] at h
      rcases insertByCreatedDesc_mem y x _ h with h1 | h2
      · exact h1 ▸ List.mem_cons_self y ys
      · exact List.mem_cons_of_mem y (ih h2)

theorem recentPending_mem (table : List PendingRow) (q : String)
    (hq : q ∈ recentPending table) :
    ∃ r ∈ table, r.status = "pending" ∧ r.question = q := by
  unfold recentPending at hq
  rcases List.mem_map.mp hq with ⟨r, hr, rfl⟩
  have h1 := List.mem_of_mem_take hr
  have h2 := sortByCreatedDesc_mem r _ h1
  have h3 := List.mem_filter.mp h2
  exact ⟨r, h3.1, by simpa using h3.2, rfl⟩

/-- **C7 counterexample.** A stored pending question whose text is the
empty string: its embedding has cosine similarity 1 ≥ 0.85 to the query
vector, yet the zero-results branch still inserts a new pending row,
because `findSimilarPendingQuestion` returns the matched question text and
uses `""` as its not-found sentinel. -/
def c7CtrTable : List PendingRow :=
  [⟨"p1", "", "u", "pending", none, none, 0, none⟩]

theorem c7_pending_dedup_counterexample :
    (∃ p ∈ (recentPending c7CtrTable).zip [([1] : Vec)],
      (85 / 100 : ℚ) ≤ cosineSimilarity [1] p.2) ∧
    queryZeroResults (fun _ => some [[1]]) (fun _ => none) c7CtrTable
      "q" "u" "new" 5 [1] =
      some (true, pendingMsgCreated, c7CtrTable ++
        [⟨"new", "q", "u", "pending", none, none, 5, none⟩]) ∧
    c7CtrTable ++ [⟨"new", "q", "u", "pending", none, none, 5, none⟩] ≠
      c7CtrTable := by
  have hrp : recentPending c7CtrTable = [""] := rfl
  have hdot : dotProduct [1] ([1] : Vec) = 1 := by
    simp [dotProduct]
  have hcos : cosineSimilarity [1] ([1] : Vec) = 1 := by
    simp only [cosineSimilarity]
    rw [if_neg (by simp)]
    rw [hdot]
    rw [if_neg (by norm_num)]
    rw [show Rat.sqrt 1 = 1 by decide]
    norm_num
  have hfind : (([""] : List String).zip [([1] : Vec)]).find?
      (fun p => decide ((85 / 100 : ℚ) ≤ cosineSimilarity [1] p.2)) =
      some ("", [1]) := by
    show ([(("", [1]) : String × Vec)]).find?
      (fun p => decide ((85 / 100 : ℚ) ≤ cosineSimilarity [1] p.2)) =
      some ("", [1])
    rw [List.find?_cons_of_pos]
    simp only [hcos]
    norm_num
  have hfs : findSimilarPendingQuestion (fun _ => some [[1]]) c7CtrTable
      [1] = "" := by
    simp only [findSimilarPendingQuestion, hrp]
    rw [if_neg (by simp)]
    show (match (([""] : List String).zip [([1] : Vec)]).find?
        (fun p => decide ((85 / 100 : ℚ) ≤ cosineSimilarity [1] p.2)) with
      | some p => p.1
      | none => "") = ""
    rw [hfind]
  refine ⟨⟨("", [1]), by rw [hrp]; simp, by rw [hcos]; norm_num⟩, ?_, ?_⟩
  · simp only [queryZeroResults]
    rw [hfs, if_neg (by simp)]
    simp only [createPendingQuestion]
    rw [if_neg (by decide)]
    rfl
  · decide

/-- **C7 (amended).** When the zero-results branch of `Query` runs with a
successful batch embedding of the most recent 50 pending questions, and
every stored pending question has nonempty text: if any embedded pending
question has cosine similarity ≥ 0.85 to the query vector, the branch
answers `is_pending = true` and inserts no new row; otherwise (given a
fresh generated id) it inserts exactly one new `pending_questions` row
with status `"pending"` and answers `is_pending = true`. -/
theorem c7_pending_dedup (embedBatch : List String → Option (List Vec))
    (translate : String → Option String) (table : List PendingRow)
    (question userID newId : String) (now : Nat) (qv : Vec)
    (vecs : List Vec)
    (hembed : embedBatch (recentPending table) = some vecs)
    (hne : ∀ r ∈ table, r.status = "pending" → r.question ≠ "")
    (hfresh : ¬ (table.map (fun r => r.id)).contains newId = true) :
    ((∃ p ∈ (recentPending table).zip vecs,
        (85 / 100 : ℚ) ≤ cosineSimilarity qv p.2) →
      queryZeroResults embedBatch translate table question userID newId
        now qv =
        some (true, applyTranslation translate pendingMsgExisting,
          table)) ∧
    ((∀ p ∈ (recentPending table).zip vecs,
        ¬ (85 / 100 : ℚ) ≤ cosineSimilarity qv p.2) →
      queryZeroResults embedBatch translate table question userID newId
        now qv =
        some (true, applyTranslation translate pendingMsgCreated,
          table ++ [⟨newId, question, userID, "pending", none, none, now,
            none⟩])) := by
  constructor
  · intro hsim
    obtain ⟨p, hp, hps⟩ := hsim
    have hzipne : ¬ (recentPending table).length = 0 := by
      intro h0
      rw [List.length_eq_zero] at h0
      rw [h0] at hp
      simp at hp
    have hfind : (((recentPending table).zip vecs).find?
        (fun p => decide ((85 / 100 : ℚ) ≤
          cosineSimilarity qv p.2))).isSome = true := by
      rw [List.find?_isSome]
      exact ⟨p, hp, by simpa using hps⟩
    obtain ⟨p0, hp0⟩ := Option.isSome_iff_exists.mp hfind
    have hp0mem := List.mem_of_find?_eq_some hp0
    have hp0q : p0.1 ∈ recentPending table := by
      obtain ⟨a, b⟩ := p0
      exact (List.of_mem_zip hp0mem).1
    obtain ⟨r, hr, hrstat, hrq⟩ := recentPending_mem table p0.1 hp0q
    have hp0ne : p0.1 ≠ "" := hrq ▸ hne r hr hrstat
    have hfs : findSimilarPendingQuestion embedBatch table qv = p0.1 := by
      simp only [findSimilarPendingQuestion]
      rw [if_neg hzipne, hembed]
      show (match ((recentPending table).zip vecs).find?
          (fun p => decide ((85 / 100 : ℚ) ≤
            cosineSimilarity qv p.2)) with
        | some p => p.1
        | none => "") = p0.1
      rw [hp0]
    simp only [queryZeroResults]
    rw [hfs, if_pos hp0ne]
  · intro hnone
    have hfindn : ((recentPending table).zip vecs).find?
        (fun p => decide ((85 / 100 : ℚ) ≤
          cosineSimilarity qv p.2)) = none :=
      List.find?_eq_none.mpr (fun x hx => by simpa using hnone x hx)
    have hfs : findSimilarPendingQuestion embedBatch table qv = "" := by
      simp only [findSimilarPendingQuestion]
      by_cases hz : (recentPending table).length = 0
      · rw [if_pos hz]
      · rw [if_neg hz, hembed]
        show (match ((recentPending table).zip vecs).find?
            (fun p => decide ((85 / 100 : ℚ) ≤
              cosineSimilarity qv p.2)) with
          | some p => p.1
          | none => "") = ""
        rw [hfindn]
    simp only [queryZeroResults]
    rw [hfs, if_neg (by simp)]
    simp only [createPendingQuestion]
    rw [if_neg hfresh]

/-- **C7 witness.** With an empty pending table (so the batch is empty and
no similarity reaches 0.85) the zero-results branch inserts exactly one
new pending row with status `"pending"` and answers `is_pending = true`. -/
theorem c7_pending_dedup_witness :
    ((fun _ : List String => some ([] : List Vec))
        (recentPending ([] : List PendingRow)) = some ([] : List Vec) ∧
     (∀ r ∈ ([] : List PendingRow),
        r.status = "pending" → r.question ≠ "") ∧
     ¬ (([] : List PendingRow).map (fun r => r.id)).contains "q1" = true) ∧
    queryZeroResults (fun _ => some []) (fun _ => none) [] "hi" "u" "q1"
      5 [1] =
      some (true, pendingMsgCreated,
        [⟨"q1", "hi", "u", "pending", none, none, 5, none⟩]) := by
  refine ⟨⟨rfl, by simp, by decide⟩, ?_⟩
  have h := c7_pending_dedup (fun _ => some []) (fun _ => none) [] "hi"
    "u" "q1" 5 [1] [] rfl (by simp) (by decide)
  have h2 := h.2 (by simp)
  simpa [applyTranslation] using h2

/-- `truncate`: shorten to `maxLen` runes, appending `"..."` if truncated. -/
def truncate (s : String) (maxLen : Nat) : String :=
  let runes := s.toList
  if runes.length ≤ maxLen then s
  else String.mk (runes.take maxLen) ++ "..."

/-- The state touched by the pending-question manager: the
`pending_questions` table and the vector store (whose `documents` list is
the `documents` table). -/
structure PendingState where
  pending : List PendingRow
  store : SQLiteVectorStore
  deriving DecidableEq

/-- `CreatePending`: insert one row with status `"pending"` (`newId`
models `generateID()`; the insert fails on a duplicate primary key). -/
def managerCreatePending (st : PendingState)
    (newId question userID : String) (now : Nat) :
    Option (PendingState × PendingRow) :=
  if (st.pending.map (fun r => r.id)).contains newId then none
  else
    some ({st with pending := st.pending ++
      [⟨newId, question, userID, "pending", none, none, now, none⟩]},
      ⟨newId, question, userID, "pending", none, none, now, none⟩)

/-- Step 2 of `AnswerQuestion`:
`UPDATE pending_questions SET answer = ? WHERE id = ?`. -/
def updateAnswer (l : List PendingRow) (qid text : String) :
    List PendingRow :=
  l.map (fun r => if r.id = qid then {r with answer := some text} else r)

/-- Step 5 of `AnswerQuestion`: `UPDATE pending_questions SET
llm_answer = ?, status = 'answered', answered_at = ? WHERE id = ?`. -/
def updateAnswered (l : List PendingRow) (qid llmA : String) (now : Nat) :
    List PendingRow :=
  l.map (fun r => if r.id = qid then
    {r with llmAnswer := some llmA, status := "answered",
            answeredAt := some now} else r)

/-- Step 3 of `AnswerQuestion`: for nonempty answer text, chunk it, batch
embed, insert the `documents` row (the FK target) and `Store` the vector
chunks; the flag reports success.  The state is returned even on failure:
the `documents` insert commits separately from the chunk transaction. -/
def answerStep3 (st1 : PendingState) (c : TextChunker)
    (embedBatch : List (List Char) → Option (List Vec))
    (docID docName text : String) : PendingState × Bool :=
  if text = "" then (st1, true)
  else
    let chunks := c.Split text.toList docID
    if chunks.length = 0 then (st1, true)
    else
      match embedBatch (chunks.map (fun ch => ch.Text)) with
      | none => (st1, false)
      | some embeddings =>
        if st1.store.documents.contains docID then (st1, false)
        else
          let vchunks := (chunks.zip embeddings).map (fun p =>
            (⟨String.mk p.1.Text, (p.1.Index : Int), docID, docName,
              p.2, "", ""⟩ : VectorChunk))
          let res := SQLiteVectorStore.Store
            {st1.store with documents := st1.store.documents ++ [docID]}
            docID vchunks
          ({st1 with store := res.1}, res.2)

/-- `AnswerQuestion(question_id, text)`: reject an unknown id or an
already-answered question; record the answer text; chunk/embed/store a
nonempty answer into the knowledge base; generate the LLM summary; then
mark the row `status = "answered"` with `llm_answer` and `answered_at`.
The flag reports success; on failure the partially-updated state is
returned, exactly as the uncommitted SQL updates of the source persist. -/
def PendingState.AnswerQuestion (st : PendingState) (c : TextChunker)
    (embedBatch : List (List Char) → Option (List Vec))
    (llmGen : String → String → Option String)
    (qid text : String) (now : Nat) : PendingState × Bool :=
  match st.pending.find? (fun r => r.id = qid) with
  | none => (st, false)
  | some row =>
    if row.status = "answered" then (st, false)
    else
      let st1 := {st with pending := updateAnswer st.pending qid text}
      let s3 := answerStep3 st1 c embedBatch ("pending-answer-" ++ qid)
        ("管理员回答: " ++ truncate row.question 50) text
      if s3.2 = false then (s3.1, false)
      else
        match llmGen text row.question with
        | none => (s3.1, false)
        | some llmA =>
          ({s3.1 with pending := updateAnswered s3.1.pending qid llmA now},
           true)

theorem answerStep3_pending (st1 : PendingState) (c : TextChunker)
    (embedBatch : List (List Char) → Option (List Vec))
    (docID docName text : String) :
    (answerStep3 st1 c embedBatch docID docName text).1.pending =
      st1.pending := by
  simp only [answerStep3]
  split
  · rfl
  · split
    · rfl
    · split
      · rfl
      · split
        · rfl
        · rfl

theorem find?_update (g : PendingRow → PendingRow)
    (hg : ∀ r, (g r).id = r.id) (qid : String) :
    ∀ l : List PendingRow,
    (l.map (fun r => if r.id = qid then g r else r)).find?
        (fun r => r.id = qid) =
      (l.find? (fun r => r.id = qid)).map
        (fun r => if r.id = qid then g r else r) := by
  intro l
  induction l with
  | nil => rfl
  | cons r rest ih =>
      simp only [List.map_cons]
      by_cases hr : r.id = qid
      · rw [if_pos hr]
        rw [List.find?_cons_of_pos _ (by simpa [hg r] using hr),
          List.find?_cons_of_pos _ (by simpa using hr)]
        simp only [Option.map_some']
        rw [if_pos hr]
      · rw [if_neg hr]
        rw [List.find?_cons_of_neg _ (by simpa using hr),
          List.find?_cons_of_neg _ (by simpa using hr)]
        exact ih

theorem answerQuestion_notfound (st : PendingState) (c : TextChunker)
    (embedBatch : List (List Char) → Option (List Vec))
    (llmGen : String → String → Option String)
    (qid text : String) (now : Nat)
    (hf : st.pending.find? (fun r => r.id = qid) = none) :
    st.AnswerQuestion c embedBatch llmGen qid text now = (st, false) := by
  simp [PendingState.AnswerQuestion, hf]

theorem answerQuestion_answered (st : PendingState) (c : TextChunker)
    (embedBatch : List (List Char) → Option (List Vec))
    (llmGen : String → String → Option String)
    (qid text : String) (now : Nat) (row : PendingRow)
    (hf : st.pending.find? (fun r => r.id = qid) = some row)
    (hstat : row.status = "answered") :
    st.AnswerQuestion c embedBatch llmGen qid text now = (st, false) := by
  simp only [PendingState.AnswerQuestion, hf]
  rw [if_pos hstat]

theorem answerQuestion_step3_fail (st : PendingState) (c : TextChunker)
    (embedBatch : List (List Char) → Option (List Vec))
    (llmGen : String → String → Option String)
    (qid text : String) (now : Nat) (row : PendingRow)
    (hf : st.pending.find? (fun r => r.id = qid) = some row)
    (hstat : ¬ row.status = "answered")
    (h3 : (answerStep3 {st with pending := updateAnswer st.pending qid text}
      c embedBatch ("pending-answer-" ++ qid)
      ("管理员回答: " ++ truncate row.question 50) text).2 = false) :
    st.AnswerQuestion c embedBatch llmGen qid text now =
      ((answerStep3 {st with pending := updateAnswer st.pending qid text}
        c embedBatch ("pending-answer-" ++ qid)
        ("管理员回答: " ++ truncate row.question 50) text).1, false) := by
  simp only [PendingState.AnswerQuestion, hf]
  rw [if_neg hstat, if_pos h3]

theorem answerQuestion_llm_fail (st : PendingState) (c : TextChunker)
    (embedBatch : List (List Char) → Option (List Vec))
    (llmGen : String → String → Option String)
    (qid text : String) (now : Nat) (row : PendingRow)
    (hf : st.pending.find? (fun r => r.id = qid) = some row)
    (hstat : ¬ row.status = "answered")
    (h3 : (answerStep3 {st with pending := updateAnswer st.pending qid text}
      c embedBatch ("pending-answer-" ++ qid)
      ("管理员回答: " ++ truncate row.question 50) text).2 = true)
    (hllm : llmGen text row.question = none) :
    st.AnswerQuestion c embedBatch llmGen qid text now =
      ((answerStep3 {st with pending := updateAnswer st.pending qid text}
        c embedBatch ("pending-answer-" ++ qid)
        ("管理员回答: " ++ truncate row.question 50) text).1, false) := by
  simp only [PendingState.AnswerQuestion, hf]
  rw [if_neg hstat, if_neg (by rw [h3]; decide), hllm]

theorem answerQuestion_success (st : PendingState) (c : TextChunker)
    (embedBatch : List (List Char) → Option (List Vec))
    (llmGen : String → String → Option String)
    (qid text : String) (now : Nat) (row : PendingRow) (llmA : String)
    (hf : st.pending.find? (fun r => r.id = qid) = some row)
    (hstat : ¬ row.status = "answered")
    (h3 : (answerStep3 {st with pending := updateAnswer st.pending qid text}
      c embedBatch ("pending-answer-" ++ qid)
      ("管理员回答: " ++ truncate row.question 50) text).2 = true)
    (hllm : llmGen text row.question = some llmA) :
    st.AnswerQuestion c embedBatch llmGen qid text now =
      ({(answerStep3 {st with pending := updateAnswer st.pending qid text}
          c embedBatch ("pending-answer-" ++ qid)
          ("管理员回答: " ++ truncate row.question 50) text).1 with
        pending := updateAnswered
          (answerStep3 {st with pending := updateAnswer st.pending qid text}
            c embedBatch ("pending-answer-" ++ qid)
            ("管理员回答: " ++ truncate row.question 50) text).1.pending
          qid llmA now}, true) := by
  simp only [PendingState.AnswerQuestion, hf]
  rw [if_neg hstat, if_neg (by rw [h3]; decide), hllm]

theorem updateAnswer_preserves (l : List PendingRow) (qid text : String)
    (i : Nat) (r : PendingRow) (h : l[i]? = some r) :
    ∃ r', (updateAnswer l qid text)[i]? = some r' ∧ r'.id = r.id ∧
      r'.status = r.status := by
  refine ⟨if r.id = qid then {r with answer := some text} else r, ?_, ?_, ?_⟩
  · unfold updateAnswer
    rw [List.getElem?_map, h]
    rfl
  · by_cases hr : r.id = qid
    · rw [if_pos hr]
    · rw [if_neg hr]
  · by_cases hr : r.id = qid
    · rw [if_pos hr]
    · rw [if_neg hr]

theorem updateAnswered_preserves (l : List PendingRow) (qid llmA : String)
    (now : Nat) (i : Nat) (r : PendingRow) (h : l[i]? = some r) :
    ∃ r', (updateAnswered l qid llmA now)[i]? = some r' ∧ r'.id = r.id ∧
      (r'.status = r.status ∨ r'.status = "answered") := by
  refine ⟨if r.id = qid then
    {r with llmAnswer := some llmA, status := "answered",
            answeredAt := some now} else r, ?_, ?_, ?_⟩
  · unfold updateAnswered
    rw [List.getElem?_map, h]
    rfl
  · by_cases hr : r.id = qid
    · rw [if_pos hr]
    · rw [if_neg hr]
  · by_cases hr : r.id = qid
    · rw [if_pos hr]
      exact Or.inr rfl
    · rw [if_neg hr]
      exact Or.inl rfl

/-- **C9.** `AnswerQuestion` errors (leaving the state unchanged) when the
question id does not exist or its status is already `"answered"`; a
successful `AnswerQuestion` moves the matched row from a non-`"answered"`
status (always `"pending"` for rows the manager creates) to `"answered"`
exactly once — setting `answer`, `llm_answer` and `answered_at`, touching
no other row, and rejecting any second `AnswerQuestion` on the same id —
and no operation of the pending manager (any `AnswerQuestion` outcome,
`CreatePending`; `ListPending` only reads) ever moves a row from
`"answered"` back to `"pending"`. -/
theorem c9_answer_transitions (st : PendingState) (c : TextChunker)
    (embedBatch : List (List Char) → Option (List Vec))
    (llmGen : String → String → Option String)
    (qid text : String) (now : Nat) :
    (st.pending.find? (fun r => r.id = qid) = none →
      st.AnswerQuestion c embedBatch llmGen qid text now = (st, false)) ∧
    (∀ row, st.pending.find? (fun r => r.id = qid) = some row →
      row.status = "answered" →
      st.AnswerQuestion c embedBatch llmGen qid text now = (st, false)) ∧
    ((st.AnswerQuestion c embedBatch llmGen qid text now).2 = true →
      ∃ row llmA, st.pending.find? (fun r => r.id = qid) = some row ∧
        ¬ row.status = "answered" ∧
        llmGen text row.question = some llmA ∧
        (st.AnswerQuestion c embedBatch llmGen qid text now).1.pending =
          updateAnswered (updateAnswer st.pending qid text) qid llmA now ∧
        (st.AnswerQuestion c embedBatch llmGen qid text
            now).1.pending.find? (fun r => r.id = qid) =
          some {row with
                answer := some text
                llmAnswer := some llmA
                status := "answered"
                answeredAt := some now} ∧
        (∀ i : Nat, ∀ r' : PendingRow, st.pending[i]? = some r' →
          ¬ r'.id = qid →
          (st.AnswerQuestion c embedBatch llmGen qid text
            now).1.pending[i]? = some r') ∧
        (∀ c2 : TextChunker,
          ∀ eb2 : List (List Char) → Option (List Vec),
          ∀ lg2 : String → String → Option String,
          ∀ text2 : String, ∀ now2 : Nat,
          ((st.AnswerQuestion c embedBatch llmGen qid text
            now).1).AnswerQuestion c2 eb2 lg2 qid text2 now2 =
            ((st.AnswerQuestion c embedBatch llmGen qid text now).1,
             false))) ∧
    (∀ i : Nat, ∀ r : PendingRow, st.pending[i]? = some r →
      r.status = "answered" →
      ∃ r', (st.AnswerQuestion c embedBatch llmGen qid text
        now).1.pending[i]? = some r' ∧ r'.id = r.id ∧
        r'.status = "answered") ∧
    (∀ newId q2 uid : String, ∀ now2 : Nat,
      ∀ st' : PendingState, ∀ row : PendingRow,
      managerCreatePending st newId q2 uid now2 = some (st', row) →
      st'.pending = st.pending ++ [row] ∧ row.status = "pending") := by
  refine ⟨?_, ?_, ?_, ?_, ?_⟩
  · intro hf
    exact answerQuestion_notfound st c embedBatch llmGen qid text now hf
  · intro row hf hstat
    exact answerQuestion_answered st c embedBatch llmGen qid text now row
      hf hstat
  · intro hsucc
    rcases hf : st.pending.find? (fun r => r.id = qid) with _ | row
    · rw [answerQuestion_notfound st c embedBatch llmGen qid text now hf]
        at hsucc
      simp at hsucc
    · by_cases hstat : row.status = "answered"
      · rw [answerQuestion_answered st c embedBatch llmGen qid text now
          row hf hstat] at hsucc
        simp at hsucc
      · rcases h3 : (answerStep3
            {st with pending := updateAnswer st.pending qid text} c
            embedBatch ("pending-answer-" ++ qid)
            ("管理员回答: " ++ truncate row.question 50) text).2
        · rw [answerQuestion_step3_fail st c embedBatch llmGen qid text
            now row hf hstat h3] at hsucc
          simp at hsucc
        · rcases hllm : llmGen text row.question with _ | llmA
          · rw [answerQuestion_llm_fail st c embedBatch llmGen qid text
              now row hf hstat h3 hllm] at hsucc
            simp at hsucc
          · have hA := answerQuestion_success st c embedBatch llmGen qid
              text now row llmA hf hstat h3 hllm
            have hrowid : row.id = qid := by
              simpa using List.find?_some hf
            have hpend : (st.AnswerQuestion c embedBatch llmGen qid text
                now).1.pending =
                updateAnswered (updateAnswer st.pending qid text) qid
                  llmA now := by
              rw [hA]
              show updateAnswered (answerStep3
                {st with pending := updateAnswer st.pending qid text} c
                embedBatch ("pending-answer-" ++ qid)
                ("管理员回答: " ++ truncate row.question 50) text).1.pending
                qid llmA now = _
              rw [answerStep3_pending]
            have hfind2 : (st.AnswerQuestion c embedBatch llmGen qid text
                now).1.pending.find? (fun r => r.id = qid) =
                some {row with
                      answer := some text
                      llmAnswer := some llmA
                      status := "answered"
                      answeredAt := some now} := by
              rw [hpend]
              simp only [updateAnswered]
              rw [find?_update
                (fun r => {r with
                  llmAnswer := some llmA
                  status := "answered"
                  answeredAt := some now})
                (fun r => rfl) qid]
              simp only [updateAnswer]
              rw [find?_update (fun r => {r with answer := some text})
                (fun r => rfl) qid, hf]
              simp only [Option.map_some']
              rw [if_pos hrowid, if_pos hrowid]
            refine ⟨row, llmA, hf, hstat, hllm, hpend, hfind2, ?_, ?_⟩
            · intro i r' hir hneq
              rw [hpend]
              simp only [updateAnswered, updateAnswer, List.getElem?_map,
                hir, Option.map_some']
              rw [if_neg hneq, if_neg hneq]
            · intro c2 eb2 lg2 text2 now2
              have h2call : ∀ S : PendingState,
                  S.pending.find? (fun r => r.id = qid) =
                    some {row with
                          answer := some text
                          llmAnswer := some llmA
                          status := "answered"
                          answeredAt := some now} →
                  S.AnswerQuestion c2 eb2 lg2 qid text2 now2 =
                    (S, false) := by
                intro S hS
                simp only [PendingState.AnswerQuestion, hS]
                rfl
              exact h2call _ hfind2
  · intro i r hir hrstat
    rcases hf : st.pending.find? (fun r => r.id = qid) with _ | row
    · rw [answerQuestion_notfound st c embedBatch llmGen qid text now hf]
      exact ⟨r, hir, rfl, hrstat⟩
    · by_cases hstat : row.status = "answered"
      · rw [answerQuestion_answered st c embedBatch llmGen qid text now
          row hf hstat]
        exact ⟨r, hir, rfl, hrstat⟩
      · obtain ⟨r1, h1, hid1, hst1⟩ := updateAnswer_preserves st.pending
          qid text i r hir
        rcases h3 : (answerStep3
            {st with pending := updateAnswer st.pending qid text} c
            embedBatch ("pending-answer-" ++ qid)
            ("管理员回答: " ++ truncate row.question 50) text).2
        · rw [answerQuestion_step3_fail st c embedBatch llmGen qid text
            now row hf hstat h3]
          show ∃ r', (answerStep3 _ c embedBatch _ _ text).1.pending[i]? =
            some r' ∧ r'.id = r.id ∧ r'.status = "answered"
          rw [answerStep3_pending]
          exact ⟨r1, h1, hid1, hst1.trans hrstat⟩
        · rcases hllm : llmGen text row.question with _ | llmA
          · rw [answerQuestion_llm_fail st c embedBatch llmGen qid text
              now row hf hstat h3 hllm]
            show ∃ r', (answerStep3 _ c embedBatch _ _
              text).1.pending[i]? = some r' ∧ r'.id = r.id ∧
              r'.status = "answered"
            rw [answerStep3_pending]
            exact ⟨r1, h1, hid1, hst1.trans hrstat⟩
          · have hA := answerQuestion_success st c embedBatch llmGen qid
              text now row llmA hf hstat h3 hllm
            rw [hA]
            show ∃ r', (updateAnswered (answerStep3
              {st with pending := updateAnswer st.pending qid text} c
              embedBatch ("pending-answer-" ++ qid)
              ("管理员回答: " ++ truncate row.question 50) text).1.pending
              qid llmA now)[i]? = some r' ∧ r'.id = r.id ∧
              r'.status = "answered"
            rw [answerStep3_pending]
            obtain ⟨r2, h2, hid2, hst2⟩ := updateAnswered_preserves
              (updateAnswer st.pending qid text) qid llmA now i r1 h1
            refine ⟨r2, h2, hid2.trans hid1, ?_⟩
            rcases hst2 with h' | h'
            · exact h'.trans (hst1.trans hrstat)
            · exact h'
  · intro newId q2 uid now2 st' row h
    unfold managerCreatePending at h
    split at h
    · exact absurd h (by simp)
    · simp only [Option.some.injEq, Prod.mk.injEq] at h
      rcases h with ⟨h1, h2⟩
      rw [← h1, ← h2]
      exact ⟨rfl, rfl⟩

/-- An empty vector store for the pending-manager witness. -/
def c9Store : SQLiteVectorStore :=
  { documents := [], rows := [], loaded := false, meta := [],
    arenaData := [], arenaDim := 0, productIndex := [],
    searchCache := ⟨[], [], 256, 300⟩ }

/-- A manager state with one pending question, for the `AnswerQuestion`
witness. -/
def c9State : PendingState :=
  { pending := [⟨"q1", "如何使用", "u1", "pending", none, none, 1, none⟩],
    store := c9Store }

/-- **C9 witness.** Concretely answering question `"q1"` (empty answer
text, an LLM summary `"总结"`) succeeds, and the theorem yields the found
pending row and the two-update form of the new table. -/
theorem c9_answer_transitions_witness :
    (c9State.AnswerQuestion ⟨512, 128⟩ (fun _ => none)
        (fun _ _ => some "总结") "q1" "" 7).2 = true ∧
    ∃ row llmA,
      c9State.pending.find? (fun r => r.id = "q1") = some row ∧
      ¬ row.status = "answered" ∧
      (c9State.AnswerQuestion ⟨512, 128⟩ (fun _ => none)
        (fun _ _ => some "总结") "q1" "" 7).1.pending =
        updateAnswered (updateAnswer c9State.pending "q1" "") "q1" llmA
          7 := by
  have hsucc : (c9State.AnswerQuestion ⟨512, 128⟩ (fun _ => none)
      (fun _ _ => some "总结") "q1" "" 7).2 = true := by decide
  have h := (c9_answer_transitions c9State ⟨512, 128⟩ (fun _ => none)
    (fun _ _ => some "总结") "q1" "" 7).2.2.1 hsucc
  obtain ⟨row, llmA, h1, h2, h3, h4, h5, h6, h7⟩ := h
  exact ⟨hsucc, row, llmA, h1, h2, h4⟩
